import Mathlib

/-!
Verification of the barestreams repository: a shallow embedding in Lean 4 of
the TypeScript functions named by the specification, together with proofs of
the spec's claims about them.

Modelling conventions, used throughout:
* JS strings are modelled as Lean `String` / `List Char`; byte-level file
  contents are modelled as `List Char` where each `Char` stands for one byte.
  String comparison is code-point lexicographic, which agrees with the
  JS code-unit comparison on the ASCII data these functions handle.
* JS `number` values arising from `Number(string)` are modelled exactly as
  rationals (`ℚ`): the mathematical value of the numeric literal.  IEEE-754
  rounding to the nearest double is not applied; the two semantics agree on
  every value whose decimal expansion is exactly representable, in
  particular on all integer segments these programs consume.
* Fallible code returns `Option` / `Except`; JS exceptions are `Except.error`.
-/

namespace Barestreams

/-- The `[0-9]` class (JS regex `\d`). -/
def isDigitChar (c : Char) : Bool :=
  48 ≤ c.toNat ∧ c.toNat ≤ 57

/-- JS regex `\w` class: `[A-Za-z0-9_]`. -/
def jsIsWordChar (c : Char) : Bool :=
  (65 ≤ c.toNat ∧ c.toNat ≤ 90) ∨ (97 ≤ c.toNat ∧ c.toNat ≤ 122) ∨
    (48 ≤ c.toNat ∧ c.toNat ≤ 57) ∨ c.toNat = 95

/-- ASCII alphanumeric, the `[a-z0-9]` class under the JS `i` flag. -/
def isAsciiAlnum (c : Char) : Bool :=
  (65 ≤ c.toNat ∧ c.toNat ≤ 90) ∨ (97 ≤ c.toNat ∧ c.toNat ≤ 122) ∨
    (48 ≤ c.toNat ∧ c.toNat ≤ 57)

/-- JS regex `\s` class and the `String.prototype.trim` whitespace set:
ECMAScript WhiteSpace ∪ LineTerminator. -/
def jsIsWs (c : Char) : Bool :=
  c.toNat = 0x09 ∨ c.toNat = 0x0a ∨ c.toNat = 0x0b ∨ c.toNat = 0x0c ∨
    c.toNat = 0x0d ∨ c.toNat = 0x20 ∨ c.toNat = 0xa0 ∨ c.toNat = 0x1680 ∨
    (0x2000 ≤ c.toNat ∧ c.toNat ≤ 0x200a) ∨ c.toNat = 0x2028 ∨
    c.toNat = 0x2029 ∨ c.toNat = 0x202f ∨ c.toNat = 0x205f ∨
    c.toNat = 0x3000 ∨ c.toNat = 0xfeff

/-- Drop leading and trailing JS whitespace (ECMAScript `trim`). -/
def jsTrimWsList (cs : List Char) : List Char :=
  ((cs.dropWhile jsIsWs).reverse.dropWhile jsIsWs).reverse

/-- First-occurrence deduplication with an already-seen accumulator. -/
def dedupFirstAux {α : Type} [DecidableEq α] (seen : List α) : List α → List α
  | [] => []
  | a :: l =>
    if a ∈ seen then dedupFirstAux seen l
    else a :: dedupFirstAux (a :: seen) l

/-- First-occurrence deduplication, the behaviour of iterating a JS `Set`
built from a list (`Array.from(new Set(l))`). -/
def dedupFirst {α : Type} [DecidableEq α] (l : List α) : List α :=
  dedupFirstAux [] l

/-- Digit value of a char in bases up to 36 (used for 2/8/10/16). -/
def digitVal (c : Char) : Option Nat :=
  if '0' ≤ c ∧ c ≤ '9' then some (c.toNat - '0'.toNat)
  else if 'a' ≤ c ∧ c ≤ 'f' then some (c.toNat - 'a'.toNat + 10)
  else if 'A' ≤ c ∧ c ≤ 'F' then some (c.toNat - 'A'.toNat + 10)
  else none

/-- Parse a non-empty digit string in base `b`; `none` when empty or when a
char is not a digit of that base. -/
def parseDigitsBase (b : Nat) (cs : List Char) : Option Nat :=
  if cs = [] then none
  else
    cs.foldl
      (fun acc c =>
        match acc, digitVal c with
        | some a, some d => if d < b then some (a * b + d) else none
        | _, _ => none)
      (some 0)

/-- Natural value of a (known-good) base-10 digit list. -/
def natOfDigits (cs : List Char) : Nat :=
  cs.foldl (fun a c => a * 10 + (c.toNat - '0'.toNat)) 0

/-- Exponent part of an ECMAScript StrDecimalLiteral: empty, or
`e`/`E` sign? digits. -/
def jsExpPart : List Char → Option Int
  | [] => some 0
  | c :: rest =>
    if c = 'e' ∨ c = 'E' then
      match rest with
      | '+' :: ds => if ds ≠ [] ∧ ds.all isDigitChar then some (natOfDigits ds) else none
      | '-' :: ds => if ds ≠ [] ∧ ds.all isDigitChar then some (-(natOfDigits ds : Int)) else none
      | ds => if ds ≠ [] ∧ ds.all isDigitChar then some (natOfDigits ds) else none
    else none

/-- ECMAScript StrUnsignedDecimalLiteral, as an exact rational.
`none` is NaN (no parse) or Infinity. -/
def jsUnsignedDecQ (cs : List Char) : Option ℚ :=
  if cs = "Infinity".toList then none
  else
    let ip := cs.takeWhile isDigitChar
    let rest := cs.dropWhile isDigitChar
    match rest with
    | '.' :: rest2 =>
      let fp := rest2.takeWhile isDigitChar
      let rest3 := rest2.dropWhile isDigitChar
      if ip = [] ∧ fp = [] then none
      else
        (jsExpPart rest3).map fun ex =>
          ((natOfDigits ip : ℚ) + (natOfDigits fp : ℚ) / (10 : ℚ) ^ fp.length) * (10 : ℚ) ^ ex
    | _ =>
      if ip = [] then none
      else (jsExpPart rest).map fun ex => (natOfDigits ip : ℚ) * (10 : ℚ) ^ ex

/-- ECMAScript `Number(string)` on a trimmed, non-empty string. -/
def jsNumericLiteralQ (cs : List Char) : Option ℚ :=
  match cs with
  | '+' :: rest => jsUnsignedDecQ rest
  | '-' :: rest => (jsUnsignedDecQ rest).map Neg.neg
  | '0' :: c :: rest =>
    if c = 'x' ∨ c = 'X' then (parseDigitsBase 16 rest).map (Nat.cast)
    else if c = 'o' ∨ c = 'O' then (parseDigitsBase 8 rest).map (Nat.cast)
    else if c = 'b' ∨ c = 'B' then (parseDigitsBase 2 rest).map (Nat.cast)
    else jsUnsignedDecQ cs
  | _ => jsUnsignedDecQ cs

/-- ECMAScript `Number(string)`, exact-value semantics over ℚ.
Returns `none` for NaN and for ±Infinity (every use in this repository
immediately rejects non-finite and non-integral results, so collapsing them
into `none` is behaviour-preserving). -/
def jsStrToNumberQ (s : List Char) : Option ℚ :=
  let cs := jsTrimWsList s
  if cs = [] then some 0 else jsNumericLiteralQ cs

/-- JS `String.prototype.split` with a single-char separator (no limit). -/
def splitOnChar (sep : Char) : List Char → List (List Char)
  | [] => [[]]
  | c :: rest =>
    match splitOnChar sep rest with
    | [] => [[]]
    | g :: gs => if c = sep then [] :: g :: gs else (c :: g) :: gs

/-! ### IdParser (src/parsing/stremioId.ts) -/

/-- `ParsedStremioId` from stremioId.ts.  `parseStremioId` only ever stores
positive integers in `season`/`episode`, so they are carried as `Nat`. -/
structure ParsedStremioId where
  baseId : String
  season : Option Nat := none
  episode : Option Nat := none
deriving DecidableEq, Repr

/-- The `^tt\d+$` test of `baseIdRegex`. -/
def isBaseId (s : List Char) : Bool :=
  match s with
  | 't' :: 't' :: rest => rest ≠ [] ∧ rest.all isDigitChar
  | _ => false

/-- `Number.isInteger(n) && n > 0` applied to `Number(seg)`: the positive
integer value of a segment under JS numeric coercion, if any. -/
def jsPosIntOfSeg (s : List Char) : Option Nat :=
  match jsStrToNumberQ s with
  | some q => if q.den = 1 ∧ 0 < q.num then some q.num.toNat else none
  | none => none

/-- `parseStremioId` from stremioId.ts.  `Except.error` carries the
`BadRequestError` message. -/
def parseStremioId (id : String) : Except String ParsedStremioId :=
  match splitOnChar ':' id.toList with
  | [baseId] =>
    if isBaseId baseId then .ok { baseId := String.mk baseId }
    else .error "Invalid base id"
  | [baseId, seasonStr, episodeStr] =>
    if ¬isBaseId baseId then .error "Invalid base id"
    else
      match jsPosIntOfSeg seasonStr with
      | none => .error "Invalid season"
      | some season =>
        match jsPosIntOfSeg episodeStr with
        | none => .error "Invalid episode"
        | some episode =>
          .ok { baseId := String.mk baseId, season := some season,
                episode := some episode }
  | _ => .error "Invalid id segment count"

/-- Claim-side reading of "season and episode segments are positive
integers": a non-empty decimal digit string of positive value. -/
def isDecimalPosIntSeg (s : List Char) : Bool :=
  s ≠ [] ∧ s.all isDigitChar ∧ 0 < natOfDigits s

/-- The acceptance predicate exactly as claim C5 states it. -/
def specAcceptsIdC5 (id : String) : Bool :=
  match splitOnChar ':' id.toList with
  | [b] => isBaseId b
  | [b, s, e] => isBaseId b ∧ isDecimalPosIntSeg s ∧ isDecimalPosIntSeg e
  | _ => false

/-- The amended acceptance predicate: segments may be anything JS `Number()`
coerces to a positive integer. -/
def specAcceptsIdAmended (id : String) : Bool :=
  match splitOnChar ':' id.toList with
  | [b] => isBaseId b
  | [b, s, e] => isBaseId b ∧ (jsPosIntOfSeg s).isSome ∧ (jsPosIntOfSeg e).isSome
  | _ => false

/-- Success test for the parser result. -/
def exceptIsOk {ε α : Type} : Except ε α → Bool
  | .ok _ => true
  | .error _ => false

/-! ### QueryBuilder (src/scrapers/query.ts) -/

/-- ASCII-range lowercasing.  JS `toLowerCase` additionally has non-ASCII
simple mappings; on every comparison this repository performs (ASCII
keyword prefixes and ASCII literals) the two functions decide identically. -/
def asciiLower (c : Char) : Char :=
  if 65 ≤ c.toNat ∧ c.toNat ≤ 90 then Char.ofNat (c.toNat + 32) else c

/-- ASCII-range uppercasing (see `asciiLower`). -/
def asciiUpper (c : Char) : Char :=
  if 97 ≤ c.toNat ∧ c.toNat ≤ 122 then Char.ofNat (c.toNat - 32) else c

/-- The global replace `\s+` → `" "`: collapse every whitespace run to a
single space.  `prevWs` records whether the previous char was part of a
run already emitted. -/
def collapseWsAux (prevWs : Bool) : List Char → List Char
  | [] => []
  | c :: r =>
    if jsIsWs c then
      (if prevWs then [] else [' ']) ++ collapseWsAux true r
    else c :: collapseWsAux false r

/-- `value.replace(/\s+/g, " ")`. -/
def collapseWs (cs : List Char) : List Char :=
  collapseWsAux false cs

/-- Attempt the possessive-rejoin regex `\b(\w+)\s+s\b` at the head of
`cs` (the caller has already established the left word boundary and that
the head is a word char).  Greedy `\w+` and `\s+` are deterministic here:
shortening `\w+` leaves a word char where `\s` is required, and
shortening `\s+` leaves a whitespace char where the literal `s` is
required, so maximal munch is the only candidate.  Returns the
replacement (`$1` ++ `"s"`) and the unconsumed remainder. -/
def tryPossMatch (cs : List Char) : Option (List Char × List Char) :=
  let w := cs.takeWhile jsIsWordChar
  let r1 := cs.dropWhile jsIsWordChar
  if w = [] then none
  else
    let sp := r1.takeWhile jsIsWs
    let r2 := r1.dropWhile jsIsWs
    if sp = [] then none
    else
      match r2 with
      | [] => none
      | c :: rest =>
        if c = 's' then
          match rest with
          | [] => some (w ++ ['s'], [])
          | d :: _ => if jsIsWordChar d then none else some (w ++ ['s'], rest)
        else none

/-- Left-to-right scan of `replace(/\b(\w+)\s+s\b/g, "$1s")`: try a match
at every position whose left context is a non-word char, emit the
replacement and resume after the match (the last matched char is `s`, a
word char).  Fuel is structural; `possReplace` supplies enough fuel that
it never runs out. -/
def possScanF : Nat → Bool → List Char → List Char
  | 0, _, cs => cs
  | _ + 1, _, [] => []
  | fuel + 1, prevWord, c :: rest =>
    if ¬prevWord ∧ jsIsWordChar c then
      match tryPossMatch (c :: rest) with
      | some (repl, rem) => repl ++ possScanF fuel true rem
      | none => c :: possScanF fuel (jsIsWordChar c) rest
    else c :: possScanF fuel (jsIsWordChar c) rest

/-- `normalized.replace(/\b(\w+)\s+s\b/g, "$1s")`. -/
def possReplace (cs : List Char) : List Char :=
  possScanF (cs.length + 1) false cs

/-- `value.replace(/[^a-zA-Z0-9\s]/g, " ")` maps each char individually. -/
def stripNonAlnumChar (c : Char) : Char :=
  if isAsciiAlnum c ∨ jsIsWs c then c else ' '

/-- `normalizeQuery` from query.ts. -/
def normalizeQuery (cs : List Char) : List Char :=
  possReplace (jsTrimWsList (collapseWs (cs.map stripNonAlnumChar)))

/-- Decimal digit char of a value below 10. -/
def decDigitChar : Nat → Char
  | 0 => '0' | 1 => '1' | 2 => '2' | 3 => '3' | 4 => '4'
  | 5 => '5' | 6 => '6' | 7 => '7' | 8 => '8' | _ => '9'

/-- Decimal digits of a natural number, most significant first
(JS `Number.prototype.toString` on a non-negative integer). -/
def natDecDigitsAux : Nat → Nat → List Char
  | 0, _ => []
  | fuel + 1, n =>
    if n < 10 then [decDigitChar n]
    else natDecDigitsAux fuel (n / 10) ++ [decDigitChar (n % 10)]

/-- Decimal digits of a natural number, most significant first. -/
def natDecDigits (n : Nat) : List Char :=
  natDecDigitsAux (n + 1) n

/-- `season.toString().padStart(2, "0")`. -/
def pad2 (n : Nat) : List Char :=
  let d := natDecDigits n
  if d.length < 2 then '0' :: d else d

/-- The episode suffix `S{season:02}E{episode:02}` as a char list. -/
def episodeSuffixChars (season episode : Nat) : List Char :=
  'S' :: pad2 season ++ 'E' :: pad2 episode

/-- `formatEpisodeSuffix` from query.ts (`!season || !episode` is JS
falsiness: absent or zero). -/
def formatEpisodeSuffix (season episode : Option Nat) : Option (List Char) :=
  match season, episode with
  | some s, some e => if s = 0 ∨ e = 0 then none else some (episodeSuffixChars s e)
  | _, _ => none

/-- `TitleBasics` from imdb/index.ts.  String fields are char lists (the
TSV is handled at byte level); numeric fields carry the exact value of
`Number(field)` (`none` for `\N`, empty or non-finite fields). -/
structure TitleBasics where
  tconst : List Char
  titleType : List Char
  primaryTitle : List Char
  originalTitle : List Char
  isAdult : Bool
  startYear : Option ℚ
  endYear : Option ℚ
  runtimeMinutes : Option ℚ
  genres : List (List Char)
deriving DecidableEq, Repr

/-- `isSeriesTitleType` from query.ts; the argument is
`basics?.titleType` (`none` both for a missing record and for an
empty/falsy title type). -/
def isSeriesTitleType (titleType : Option (List Char)) : Bool :=
  match titleType with
  | none => false
  | some t =>
    if t = [] then false
    else
      let n := t.map asciiLower
      n = "tvseries".toList ∨ n = "tvminiseries".toList ∨ n = "tvepisode".toList

/-- Fractional decimal digits of `num/den` by long division (exact for
terminating decimals, which is every value `Number(string)` can yield). -/
def fracDigitsAux : Nat → Nat → Nat → List Char
  | 0, _, _ => []
  | fuel + 1, num, den =>
    if num = 0 then []
    else decDigitChar (num * 10 / den) :: fracDigitsAux fuel (num * 10 % den) den

/-- Decimal rendering of a JS number held exactly as a rational.  Faithful
to `String(x)` on integers and on terminating decimals within the plain
(non-exponent) notation range; this repository only ever renders IMDb
`startYear` integers with it. -/
def jsNumberToString (q : ℚ) : List Char :=
  (if q.num < 0 then ['-'] else []) ++
    natDecDigits (q.num.natAbs / q.den) ++
    (if q.den = 1 then []
     else '.' :: fracDigitsAux 1100 (q.num.natAbs % q.den) q.den)

/-- The result record of `buildQueries`. -/
structure Queries where
  baseTitle : List Char
  query : List Char
  fallbackQuery : Option (List Char)
  episodeSuffix : Option (List Char)
deriving DecidableEq, Repr

/-- `basics?.primaryTitle || basics?.originalTitle || parsed.baseId`
(JS `||` takes the first non-empty string; a missing record reads as
`undefined`, also falsy). -/
def resolveBaseTitle (basics : Option TitleBasics) (baseId : List Char) : List Char :=
  match basics with
  | none => baseId
  | some b =>
    if b.primaryTitle ≠ [] then b.primaryTitle
    else if b.originalTitle ≠ [] then b.originalTitle
    else baseId

/-- `buildQueries` from query.ts, parameterised by the `TitleBasics`
record that `getTitleBasics(parsed.baseId)` resolves (the function's only
effect). -/
def buildQueries (basics : Option TitleBasics) (parsed : ParsedStremioId) : Queries :=
  let baseTitle := resolveBaseTitle basics parsed.baseId.toList
  let episodeSuffix := formatEpisodeSuffix parsed.season parsed.episode
  let titleTypeOpt : Option (List Char) := basics.map (·.titleType)
  let isSeries := isSeriesTitleType titleTypeOpt ∨ episodeSuffix.isSome
  match episodeSuffix with
  | some sfx =>
    if isSeries then
      { baseTitle
        query := normalizeQuery (baseTitle ++ ' ' :: sfx)
        fallbackQuery := some (normalizeQuery baseTitle)
        episodeSuffix := some sfx }
    else
      -- unreachable: episodeSuffix present forces isSeries
      { baseTitle, query := normalizeQuery baseTitle,
        fallbackQuery := none, episodeSuffix := some sfx }
  | none =>
    let yearSuffix : List Char :=
      if ¬isSeries then
        match basics with
        | some b =>
          match b.startYear with
          | some y => ' ' :: jsNumberToString y
          | none => []
        | none => []
      else []
    let query := normalizeQuery (baseTitle ++ yearSuffix)
    let fallbackQuery := normalizeQuery baseTitle
    { baseTitle, query
      fallbackQuery := if fallbackQuery ≠ query then some fallbackQuery else none
      episodeSuffix := none }

/-! ### DisplayFormatter (src/streams/display.ts, first version in config.ts;
the version the test suite pins down) -/

/-- Case-insensitive literal match of `tok` at the head of `cs`; returns
the remainder on success. -/
def matchTokenCI : List Char → List Char → Option (List Char)
  | [], rest => some rest
  | _ :: _, [] => none
  | t :: ts, c :: rest =>
    if asciiLower c = asciiLower t then matchTokenCI ts rest else none

/-- The alternatives of `QUALITY_REGEX`, in source order. -/
def qualityAlts : List (List Char) :=
  ["2160p".toList, "1080p".toList, "720p".toList, "480p".toList,
    "4k".toList, "uhd".toList]

/-- The `\b` condition to the right of a match. -/
def wordBoundaryAfter (cs : List Char) : Bool :=
  match cs with
  | [] => true
  | c :: _ => ¬jsIsWordChar c

/-- Try each quality alternative at this position (the left `\b` is
checked by the scanner).  A successful match returns the token, which
equals the matched text lowercased. -/
def tryQualityAt (cs : List Char) : Option (List Char) :=
  qualityAlts.findSome? fun tok =>
    match matchTokenCI tok cs with
    | some rest => if wordBoundaryAfter rest then some tok else none
    | none => none

/-- Left-to-right scan for the first `QUALITY_REGEX` match.  Every
alternative starts with a word char, so the left `\b` holds exactly when
the previous char is not a word char. -/
def extractQualityScanF : Nat → Bool → List Char → Option (List Char)
  | 0, _, _ => none
  | _ + 1, _, [] => none
  | fuel + 1, prevWord, c :: rest =>
    match (if ¬prevWord then tryQualityAt (c :: rest) else none) with
    | some tok => some tok
    | none => extractQualityScanF fuel (jsIsWordChar c) rest

/-- `extractQualityHint` from streams/quality.ts. -/
def extractQualityHint (text : List Char) : Option (List Char) :=
  match extractQualityScanF (text.length + 1) false text with
  | none => none
  | some tok =>
    if tok = "4k".toList ∨ tok = "uhd".toList then some ("2160p".toList)
    else some tok

/-- `formatEpisode` from display.ts (`!season || !episode` is JS
falsiness: absent or zero). -/
def formatEpisode (season episode : Option Nat) : Option (List Char) :=
  match season, episode with
  | some s, some e =>
    if s = 0 ∨ e = 0 then none
    else some ("Season ".toList ++ natDecDigits s ++ " Episode ".toList ++ natDecDigits e)
  | _, _ => none

/-- One element of the title pattern `buildTitlePattern` compiles: a
literal alphanumeric run (matched case-insensitively) or the class
`[^a-z0-9]+`. -/
inductive PatElem
  | lit : List Char → PatElem
  | gap : PatElem
deriving DecidableEq, Repr

/-- Compile a trimmed title into pattern elements: alphanumeric runs stay
literal, every other run becomes `[^a-z0-9]+`. -/
def titlePatElemsF : Nat → List Char → List PatElem
  | 0, _ => []
  | _ + 1, [] => []
  | fuel + 1, c :: rest =>
    if isAsciiAlnum c then
      .lit ((c :: rest).takeWhile isAsciiAlnum)
        :: titlePatElemsF fuel ((c :: rest).dropWhile isAsciiAlnum)
    else
      .gap :: titlePatElemsF fuel ((c :: rest).dropWhile (fun x => ¬isAsciiAlnum x))

/-- `buildTitlePattern` from display.ts.  (The `if (!pattern)` guard in
the source is unreachable: the replacement of a non-empty string is
non-empty.) -/
def buildTitlePattern (title : List Char) : Option (List PatElem) :=
  let trimmed := jsTrimWsList title
  if trimmed = [] then none
  else some (titlePatElemsF (trimmed.length + 1) trimmed)

/-- Match the compiled title pattern at the head of `cs`.  Greedy
`[^a-z0-9]+` is deterministic: a shorter gap leaves a non-alphanumeric
char where the following literal needs an alphanumeric one. -/
def matchPatAt : List PatElem → List Char → Option (List Char)
  | [], rest => some rest
  | .lit l :: ps, cs =>
    match matchTokenCI l cs with
    | some rest => matchPatAt ps rest
    | none => none
  | .gap :: ps, cs =>
    if cs.takeWhile (fun c => ¬isAsciiAlnum c) = [] then none
    else matchPatAt ps (cs.dropWhile (fun c => ¬isAsciiAlnum c))

/-- `stripped.replace(pattern, "")`: remove the first (leftmost) match of
the title pattern, if any. -/
def replaceFirstPatF : Nat → List PatElem → List Char → List Char
  | 0, _, cs => cs
  | fuel + 1, ps, cs =>
    match matchPatAt ps cs with
    | some rest => rest
    | none =>
      match cs with
      | [] => []
      | c :: rest => c :: replaceFirstPatF fuel ps rest

/-- `\d{1,2}\b`: one or two digits followed by a word boundary, greedy. -/
def sxxBoundaryDigits (cs : List Char) : Option (List Char) :=
  match cs with
  | [] => none
  | a :: rest1 =>
    if isDigitChar a then
      match rest1 with
      | [] => some []
      | b :: rest2 =>
        if isDigitChar b ∧ wordBoundaryAfter rest2 then some rest2
        else if wordBoundaryAfter rest1 then some rest1
        else none
    else none

/-- `E\d{1,2}\b`, case-insensitive `E`. -/
def sxxEPart (cs : List Char) : Option (List Char) :=
  match cs with
  | [] => none
  | e0 :: r => if e0 = 'E' ∨ e0 = 'e' then sxxBoundaryDigits r else none

/-- `\d{1,2}E\d{1,2}\b` after the leading `S`: greedy two digits first,
then backtrack to one. -/
def sxxAfterS (cs : List Char) : Option (List Char) :=
  match cs with
  | [] => none
  | a :: rest1 =>
    if isDigitChar a then
      match rest1 with
      | [] => none
      | b :: rest2 =>
        if isDigitChar b then
          match sxxEPart rest2 with
          | some rem => some rem
          | none => sxxEPart rest1
        else sxxEPart rest1
    else none

/-- Attempt `\bS\d{1,2}E\d{1,2}\b/i` at this position (left boundary
checked by the scanner). -/
def matchSxxEyyAt (cs : List Char) : Option (List Char) :=
  match cs with
  | [] => none
  | c0 :: rest0 => if c0 = 'S' ∨ c0 = 's' then sxxAfterS rest0 else none

/-- `stripped.replace(/\bS\d{1,2}E\d{1,2}\b/i, "")`: the regex is not
global, so only the first match is removed. -/
def sxxScanF : Nat → Bool → List Char → List Char
  | 0, _, cs => cs
  | _ + 1, _, [] => []
  | fuel + 1, prevWord, c :: rest =>
    if ¬prevWord then
      match matchSxxEyyAt (c :: rest) with
      | some rem => rem
      | none => c :: sxxScanF fuel (jsIsWordChar c) rest
    else c :: sxxScanF fuel (jsIsWordChar c) rest

/-- `replace(/[._]+/g, " ")`: collapse every run of dots/underscores to a
single space. -/
def dotUnderAux (prevRun : Bool) : List Char → List Char
  | [] => []
  | c :: r =>
    if c = '.' ∨ c = '_' then
      (if prevRun then [] else [' ']) ++ dotUnderAux true r
    else c :: dotUnderAux false r

/-- `replace(/^[^a-z0-9]+|[^a-z0-9]+$/gi, "")`: strip the leading and the
trailing non-alphanumeric run. -/
def edgeStrip (cs : List Char) : List Char :=
  ((cs.dropWhile (fun c => ¬isAsciiAlnum c)).reverse.dropWhile
    (fun c => ¬isAsciiAlnum c)).reverse

/-- `buildTorrentSlug` from display.ts. -/
def buildTorrentSlug (torrentName : Option (List Char)) (imdbTitle : List Char) :
    Option (List Char) :=
  match torrentName with
  | none => none
  | some tn =>
    if tn = [] then none
    else
      let stripped :=
        if imdbTitle ≠ [] then
          match buildTitlePattern imdbTitle with
          | some ps => replaceFirstPatF (tn.length + 1) ps tn
          | none => tn
        else tn
      let stripped2 := sxxScanF (stripped.length + 1) false stripped
      let cleaned := jsTrimWsList (edgeStrip (collapseWs (dotUnderAux false stripped2)))
      if cleaned = [] then none else some cleaned

/-- The unit names of `formatBytes`. -/
def byteUnitName : Nat → List Char
  | 0 => "B".toList
  | 1 => "KB".toList
  | 2 => "MB".toList
  | 3 => "GB".toList
  | _ => "TB".toList

/-- The `while (value >= 1024 && unitIndex < units.length - 1)` loop of
`formatBytes`; it runs at most four times, so fuel 5 is exact. -/
def formatBytesAux : Nat → ℚ → Nat → ℚ × Nat
  | 0, v, idx => (v, idx)
  | fuel + 1, v, idx =>
    if 1024 ≤ v ∧ idx < 4 then formatBytesAux fuel (v / 1024) (idx + 1)
    else (v, idx)

/-- `Number.prototype.toFixed` on a non-negative exact rational: round to
`f` digits, ties away from zero.  (On actual doubles the tie direction
can be perturbed by binary rounding; this repository never reaches a
perturbed case in any property proved here.) -/
def qToFixed (q : ℚ) (f : Nat) : List Char :=
  let n : Nat := (q * (10 : ℚ) ^ f + 1 / 2).floor.toNat
  if f = 0 then natDecDigits n
  else
    natDecDigits (n / 10 ^ f) ++
      '.' :: (List.replicate (f - (natDecDigits (n % 10 ^ f)).length) '0'
        ++ natDecDigits (n % 10 ^ f))

/-- `formatBytes` from display.ts. -/
def formatBytes (bytes : ℚ) : List Char :=
  let r := formatBytesAux 5 bytes 0
  let precision := if 10 ≤ r.1 ∨ r.2 = 0 then 0 else 2
  qToFixed r.1 precision ++ ' ' :: byteUnitName r.2

/-- `formatInfoLine` from display.ts (first version: \u{1F331} seeders
\u{2022} \u{1F4BE} size). -/
def formatInfoLine (seeders : Option Int) (sizeBytes : Option ℚ)
    (sizeLabel : Option (List Char)) : List Char :=
  let seederCount : Int := match seeders with
    | some n => if 0 < n then n else 0
    | none => 0
  let labelText : List Char := match sizeLabel with
    | some l => if l ≠ [] then jsTrimWsList l else []
    | none => []
  let sizeText : List Char := match sizeBytes with
    | some b => if 0 < b then formatBytes b else labelText
    | none => labelText
  let sizeFinal := if sizeText = [] then "Unknown size".toList else sizeText
  "🌱 ".toList ++ natDecDigits seederCount.toNat ++ " • 💾 ".toList ++ sizeFinal

/-- `StreamDisplayOptions` from display.ts. -/
structure StreamDisplayOptions where
  imdbTitle : List Char
  season : Option Nat := none
  episode : Option Nat := none
  torrentName : Option (List Char) := none
  quality : Option (List Char) := none
  source : Option (List Char) := none
  seeders : Option Int := none
  sizeBytes : Option ℚ := none
  sizeLabel : Option (List Char) := none
deriving DecidableEq, Repr

/-- `resolveQuality` from display.ts. -/
def resolveQuality (opts : StreamDisplayOptions) : List Char :=
  match extractQualityHint (opts.torrentName.getD []) with
  | some q => q
  | none =>
    match extractQualityHint (opts.quality.getD []) with
    | some q => q
    | none => "480p".toList

/-- `formatQualityLabel` from display.ts. -/
def formatQualityLabel (quality : List Char) : List Char :=
  let normalized := (jsTrimWsList quality).map asciiLower
  if normalized = "2160p".toList ∨ normalized = "4k".toList ∨ normalized = "uhd".toList
  then "4K".toList
  else normalized

/-- The result record of `formatStreamDisplay`. -/
structure StreamDisplay where
  name : List Char
  title : List Char
  description : List Char
deriving DecidableEq, Repr

/-- `options.imdbTitle?.trim() || "Unknown title"`. -/
def displayImdbTitle (opts : StreamDisplayOptions) : List Char :=
  if jsTrimWsList opts.imdbTitle = [] then "Unknown title".toList
  else jsTrimWsList opts.imdbTitle

/-- `options.source?.trim() || "Stream"`. -/
def displayName (opts : StreamDisplayOptions) : List Char :=
  match opts.source with
  | some s => if jsTrimWsList s = [] then "Stream".toList else jsTrimWsList s
  | none => "Stream".toList

/-- `options.source?.trim() || "Unknown"`. -/
def displaySourceLabel (opts : StreamDisplayOptions) : List Char :=
  match opts.source with
  | some s => if jsTrimWsList s = [] then "Unknown".toList else jsTrimWsList s
  | none => "Unknown".toList

/-- `buildTorrentSlug(...) || options.quality?.trim() || "Unknown release"`. -/
def displaySlugLine (opts : StreamDisplayOptions) : List Char :=
  match buildTorrentSlug opts.torrentName (displayImdbTitle opts) with
  | some slug => slug
  | none =>
    match opts.quality with
    | some q => if jsTrimWsList q = [] then "Unknown release".toList else jsTrimWsList q
    | none => "Unknown release".toList

/-- The slug line with the source label appended in parentheses. -/
def displaySlugDisplay (opts : StreamDisplayOptions) : List Char :=
  displaySlugLine opts ++ " (".toList ++ displaySourceLabel opts ++ [')']

/-- The info line of the description. -/
def displayInfoLine (opts : StreamDisplayOptions) : List Char :=
  formatInfoLine opts.seeders opts.sizeBytes opts.sizeLabel

/-- `formatStreamDisplay` from display.ts (first version, the one the
test suite asserts). -/
def formatStreamDisplay (opts : StreamDisplayOptions) : StreamDisplay :=
  let episodeLine := formatEpisode opts.season opts.episode
  let lines :=
    (([some (displayImdbTitle opts), episodeLine, some (displaySlugDisplay opts),
      some (displayInfoLine opts)] : List (Option (List Char))).filterMap id).filter
      (fun l => l ≠ [])
  { name := displayName opts
    title := "Watch ".toList ++ formatQualityLabel (resolveQuality opts)
    description := List.intercalate ['\n'] lines }

/-- The description as claim C3 words it: the newline-join of the IMDb
title, an optional Season/Episode line, the slug line with the source (or
"Unknown") in parentheses, and the seeders/size info line. -/
def specDisplayDescription (opts : StreamDisplayOptions) : List Char :=
  List.intercalate ['\n']
    ([displayImdbTitle opts] ++
      (match formatEpisode opts.season opts.episode with
        | some l => [l]
        | none => []) ++
      [displaySlugDisplay opts, displayInfoLine opts])

/-- U+0027, used to build test fixtures without apostrophe literals. -/
def apoChar : Char := Char.ofNat 39

/-- The E2E-3 fixture title. -/
def handmaidTitle : List Char :=
  "The Handmaid".toList ++ apoChar :: "s Tale".toList

/-- The E2E-3 fixture torrent name. -/
def handmaidTorrent : List Char :=
  "The.Handmaid".toList ++ apoChar :: "s.Tale.S06E07.1080p.WEB.h264-ETHEL".toList

/-! ### Lemmas -/

theorem isDigitChar_not_ws {c : Char} (h : isDigitChar c = true) : jsIsWs c = false := by
  simp only [isDigitChar, decide_eq_true_eq] at h
  unfold jsIsWs
  rw [decide_eq_false_iff_not]
  omega

theorem dropWhile_eq_self_of_not {p : Char → Bool} {l : List Char}
    (h : ∀ c ∈ l, p c = false) : l.dropWhile p = l := by
  cases l with
  | nil => rfl
  | cons a l => simp [List.dropWhile_cons, h a (List.mem_cons_self a l)]

theorem jsTrimWsList_eq_self {l : List Char} (h : ∀ c ∈ l, jsIsWs c = false) :
    jsTrimWsList l = l := by
  unfold jsTrimWsList
  rw [dropWhile_eq_self_of_not h, dropWhile_eq_self_of_not, List.reverse_reverse]
  intro c hc
  exact h c (List.mem_reverse.mp hc)

theorem takeWhile_eq_self_of {p : Char → Bool} {l : List Char}
    (h : ∀ c ∈ l, p c = true) : l.takeWhile p = l := by
  induction l with
  | nil => rfl
  | cons a l ih =>
    rw [List.takeWhile_cons, if_pos (h a (List.mem_cons_self a l))]
    rw [ih (fun c hc => h c (List.mem_cons_of_mem a hc))]

theorem dropWhile_eq_nil_of {p : Char → Bool} {l : List Char}
    (h : ∀ c ∈ l, p c = true) : l.dropWhile p = [] := by
  induction l with
  | nil => rfl
  | cons a l ih =>
    rw [List.dropWhile_cons, if_pos (h a (List.mem_cons_self a l))]
    exact ih (fun c hc => h c (List.mem_cons_of_mem a hc))

theorem jsUnsignedDecQ_of_digits {cs : List Char} (h1 : cs ≠ [])
    (hdig : ∀ c ∈ cs, isDigitChar c = true) :
    jsUnsignedDecQ cs = some ((natOfDigits cs : ℚ)) := by
  have hinf : cs ≠ "Infinity".toList := by
    intro heq
    have := hdig 'I' (by rw [heq]; decide)
    simp [isDigitChar] at this
  unfold jsUnsignedDecQ
  rw [if_neg hinf, takeWhile_eq_self_of hdig, dropWhile_eq_nil_of hdig]
  have hexp : jsExpPart [] = some 0 := rfl
  simp only [if_neg h1, hexp, Option.map_some']
  rw [zpow_zero, mul_one]

theorem jsNumericLiteralQ_of_digits {cs : List Char} (h1 : cs ≠ [])
    (hdig : ∀ c ∈ cs, isDigitChar c = true) :
    jsNumericLiteralQ cs = some ((natOfDigits cs : ℚ)) := by
  unfold jsNumericLiteralQ
  split
  · rename_i rest
    have := hdig '+' (List.mem_cons_self _ _)
    exact absurd this (by decide)
  · rename_i rest
    have := hdig '-' (List.mem_cons_self _ _)
    exact absurd this (by decide)
  · rename_i c rest
    have hc : isDigitChar c = true :=
      hdig c (List.mem_cons_of_mem _ (List.mem_cons_self _ _))
    rw [if_neg ?hx, if_neg ?ho, if_neg ?hb]
    · exact jsUnsignedDecQ_of_digits h1 hdig
    case hx => rintro (rfl | rfl) <;> exact absurd hc (by decide)
    case ho => rintro (rfl | rfl) <;> exact absurd hc (by decide)
    case hb => rintro (rfl | rfl) <;> exact absurd hc (by decide)
  · exact jsUnsignedDecQ_of_digits h1 hdig

theorem jsStrToNumberQ_of_digits {s : List Char} (h1 : s ≠ [])
    (h2 : s.all isDigitChar = true) :
    jsStrToNumberQ s = some ((natOfDigits s : ℚ)) := by
  have hdig : ∀ c ∈ s, isDigitChar c = true := List.all_eq_true.mp h2
  have hws : ∀ c ∈ s, jsIsWs c = false := fun c hc =>
    isDigitChar_not_ws (hdig c hc)
  unfold jsStrToNumberQ
  simp only [jsTrimWsList_eq_self hws, if_neg h1]
  exact jsNumericLiteralQ_of_digits h1 hdig

/-- JS coercion of a non-empty positive decimal digit segment is that
positive integer. -/
theorem jsPosIntOfSeg_of_decimal {s : List Char} (h : isDecimalPosIntSeg s = true) :
    jsPosIntOfSeg s = some (natOfDigits s) := by
  have h' := h
  simp only [isDecimalPosIntSeg, Bool.and_eq_true, decide_eq_true_eq] at h'
  obtain ⟨h1, h2, h3⟩ := h'
  unfold jsPosIntOfSeg
  rw [jsStrToNumberQ_of_digits h1 h2]
  have hden : ((natOfDigits s : ℚ)).den = 1 := Rat.den_natCast _
  have hnum : ((natOfDigits s : ℚ)).num = (natOfDigits s : ℤ) :=
    Rat.num_natCast _
  show (if ((natOfDigits s : ℚ)).den = 1 ∧ 0 < ((natOfDigits s : ℚ)).num
      then some ((natOfDigits s : ℚ)).num.toNat else none) = some (natOfDigits s)
  rw [hden, hnum, if_pos ⟨rfl, Int.natCast_pos.mpr h3⟩, Int.toNat_natCast]

/-- Claim C5, counterexample: `parseStremioId` accepts the id
`tt1:0x2:3` (JS `Number("0x2")` is the positive integer 2) although `0x2`
is not a positive-integer segment, so the parser does not fail on every
input with a non-integer segment as the claim states. -/
theorem c5_counterexample :
    (parseStremioId "tt1:0x2:3").toOption = some ⟨"tt1", some 2, some 3⟩ ∧
      specAcceptsIdC5 "tt1:0x2:3" = false := by
  refine ⟨?_, by decide⟩
  with_unfolding_all rfl

/-- Claim C5 (amended): the id parser succeeds exactly on ids with one
`:`-separated segment matching `tt\d+`, or three segments whose first
matches `tt\d+` and whose season and episode segments are strings that
JavaScript `Number()` coerces to a positive integer (this admits, beyond
plain decimal numerals, hexadecimal/octal/binary and scientific notation,
surrounding whitespace, a leading `+`, and fractional forms of integral
value); every other input fails with a `BadRequestError`.  In particular
every id of the shape the original claim describes (decimal
positive-integer season/episode segments) is accepted. -/
theorem c5_id_parsing (id : String) :
    (exceptIsOk (parseStremioId id) = specAcceptsIdAmended id) ∧
      (specAcceptsIdC5 id = true → exceptIsOk (parseStremioId id) = true) := by
  constructor
  · rcases hsplit : splitOnChar ':' id.toList with _ | ⟨b, _ | ⟨s, _ | ⟨e, _ | ⟨x, rest⟩⟩⟩⟩ <;>
      simp only [parseStremioId, specAcceptsIdAmended, hsplit]
    · rfl
    · cases hb : isBaseId b <;> simp [exceptIsOk, hb]
    · rfl
    · cases hb : isBaseId b
      · simp [exceptIsOk, hb]
      · rcases hs : jsPosIntOfSeg s with _ | v
        · simp [exceptIsOk, hb, hs]
        · rcases he : jsPosIntOfSeg e with _ | w <;>
            simp [exceptIsOk, hb, hs, he]
    · rfl
  · intro h
    rcases hsplit : splitOnChar ':' id.toList with _ | ⟨b, _ | ⟨s, _ | ⟨e, _ | ⟨x, rest⟩⟩⟩⟩ <;>
      simp only [specAcceptsIdC5, hsplit] at h <;>
      simp only [parseStremioId, hsplit]
    · exact absurd h (by simp)
    · simp [exceptIsOk, h]
    · exact absurd h (by simp)
    · simp only [Bool.and_eq_true, decide_eq_true_eq] at h
      obtain ⟨hb, hs, he⟩ := h
      rw [if_neg (by simp [hb]), jsPosIntOfSeg_of_decimal hs,
        jsPosIntOfSeg_of_decimal he]
      rfl
    · exact absurd h (by simp)

/-- Witness for `c5_id_parsing`: the well-formed id `tt123:4:5` is accepted. -/
theorem c5_id_parsing_witness :
    exceptIsOk (parseStremioId "tt123:4:5") = true :=
  (c5_id_parsing "tt123:4:5").2 (by decide)

/-! ### MagnetCodec (src/parsing/magnet.ts) with a WHATWG URL model

`parseMagnet` observes a URL only through `url.protocol` and
`url.searchParams`.  The model below reproduces exactly that view: input
preprocessing, scheme parsing, authority validation for non-special
schemes (a parse failure is `none`, the `catch` branch), the raw query
extraction, and `application/x-www-form-urlencoded` parsing with
percent-decoding and UTF-8 replacement decoding.  The URL parser's own
percent-encoding inside the query is inverted verbatim by the
urlencoded decoder, so it needs no modelling. -/

/-- ASCII letter. -/
def isAsciiAlpha (c : Char) : Bool :=
  (65 ≤ c.toNat ∧ c.toNat ≤ 90) ∨ (97 ≤ c.toNat ∧ c.toNat ≤ 122)

/-- C0 control or space, trimmed from the ends of URL input. -/
def isC0OrSpace (c : Char) : Bool :=
  c.toNat ≤ 0x20

/-- ASCII tab and newlines are removed everywhere in URL input. -/
def removeTabNl (cs : List Char) : List Char :=
  cs.filter fun c => ¬(c.toNat = 0x09 ∨ c.toNat = 0x0a ∨ c.toNat = 0x0d)

/-- URL scheme chars after the first. -/
def isSchemeChar (c : Char) : Bool :=
  isAsciiAlpha c ∨ isDigitChar c ∨ c = '+' ∨ c = '-' ∨ c = '.'

/-- Parse and lowercase the scheme; `none` when the input has no valid
`scheme:` prefix (the `new URL` constructor throws). -/
def parseScheme (cs : List Char) : Option (List Char × List Char) :=
  match cs with
  | [] => none
  | c :: _ =>
    if isAsciiAlpha c then
      match cs.dropWhile isSchemeChar with
      | ':' :: rest => some ((cs.takeWhile isSchemeChar).map asciiLower, rest)
      | _ => none
    else none

/-- Code points forbidden in an opaque host (tab and newlines are already
removed from the input). -/
def forbiddenHostChar (c : Char) : Bool :=
  c.toNat = 0 ∨ c = ' ' ∨ c = '#' ∨ c = '/' ∨ c = ':' ∨ c = '<' ∨ c = '>' ∨
    c = '?' ∨ c = '@' ∨ c = '[' ∨ c = '\\' ∨ c = ']' ∨ c = '^' ∨ c = '|'

/-- `[0-9a-fA-F]`. -/
def isHexCharCI (c : Char) : Bool :=
  (48 ≤ c.toNat ∧ c.toNat ≤ 57) ∨ (97 ≤ c.toNat ∧ c.toNat ≤ 102) ∨
    (65 ≤ c.toNat ∧ c.toNat ≤ 70)

/-- One embedded-IPv4 octet: decimal, 0-255, no leading zero. -/
def validIPv4Octet (p : List Char) : Bool :=
  p ≠ [] ∧ p.all isDigitChar ∧ natOfDigits p ≤ 255 ∧
    (p.length = 1 ∨ p.head? ≠ some '0')

/-- Embedded IPv4 tail of an IPv6 literal. -/
def validIPv4InV6 (p : List Char) : Bool :=
  let parts := splitOnChar '.' p
  parts.length = 4 ∧ parts.all validIPv4Octet

/-- One 16-bit hex piece. -/
def validHexPiece (p : List Char) : Bool :=
  p ≠ [] ∧ p.length ≤ 4 ∧ p.all isHexCharCI

/-- Piece count of a piece list where an IPv4 tail counts as two. -/
def v6PieceCount (parts : List (List Char)) : Nat :=
  parts.length + (if parts.getLast? = some [] then 0 else 0) +
    (match parts.getLast? with
      | some last => if last.any (fun c => c = '.') then 1 else 0
      | none => 0)

/-- All pieces are hex pieces, except that the last may be an IPv4 tail. -/
def v6PiecesOk (parts : List (List Char)) : Bool :=
  match parts with
  | [] => true
  | [p] => validHexPiece p ∨ validIPv4InV6 p
  | p :: rest => validHexPiece p ∧ v6PiecesOk rest

/-- Validity of an IPv6 literal (between brackets), following the WHATWG
IPv6 parser: hex pieces of at most four digits, at most one `::`
compression, an optional embedded IPv4 tail, and a total piece count of
exactly eight without compression or at most seven with it. -/
def parseIPv6Ok (cs : List Char) : Bool :=
  let parts := splitOnChar ':' cs
  match parts with
  | [] => false
  | _ =>
    if parts = [[], [], []] then true  -- "::"
    else if parts.head? = some [] then
      -- leading "::" : second part must also be empty, no other empties
      match parts with
      | [] :: [] :: rest =>
        rest ≠ [] ∧ rest.all (fun p => p ≠ []) ∧ v6PiecesOk rest ∧
          v6PieceCount rest ≤ 7
      | _ => false
    else if parts.getLast? = some [] then
      -- trailing "::" : second-to-last must also be empty
      match (parts.reverse : List (List Char)) with
      | [] :: [] :: revRest =>
        revRest ≠ [] ∧ revRest.all (fun p => p ≠ []) ∧
          revRest.all validHexPiece ∧ revRest.length ≤ 7
      | _ => false
    else
      -- no leading/trailing compression: at most one interior empty
      let empties := parts.filter (fun p => p = [])
      if empties = [] then v6PiecesOk parts ∧ v6PieceCount parts = 8
      else
        empties.length = 1 ∧
          (parts.filter (fun p => p ≠ [])).length + 1 = parts.length ∧
          v6PiecesOk (parts.filter (fun p => p ≠ [])) ∧
          v6PieceCount (parts.filter (fun p => p ≠ [])) ≤ 7

/-- Port digits; empty means no port. -/
def validPort (p : List Char) : Bool :=
  p.all isDigitChar ∧ (p = [] ∨ natOfDigits p ≤ 65535)

/-- Validate the authority section (after `//`, before the first
`/`, `?` or `#`) of a non-special URL; `false` is a parse failure. -/
def validateAuthority (auth : List Char) : Bool :=
  let hasCreds := auth.any (fun c => c = '@')
  let hostport := ((auth.reverse).takeWhile (fun c => c ≠ '@')).reverse
  match hostport with
  | [] => ¬hasCreds
  | '[' :: inner =>
    let body := inner.takeWhile (fun c => c ≠ ']')
    match inner.dropWhile (fun c => c ≠ ']') with
    | ']' :: after =>
      parseIPv6Ok body &&
        (match after with
          | [] => true
          | ':' :: port => validPort port
          | _ => false)
    | _ => false
  | _ =>
    let h := hostport.takeWhile (fun c => c ≠ ':')
    let rest := hostport.dropWhile (fun c => c ≠ ':')
    (h.all (fun c => ¬forbiddenHostChar c)) &&
      (match rest with
        | [] => true
        | ':' :: port => h ≠ [] ∧ validPort port
        | _ => false)

/-- Raw query of the part after the scheme (and after the authority, when
present): the text between the first `?` and the first `#`. -/
def queryOf (t : List Char) : List Char :=
  let beforeFrag := t.takeWhile (fun c => c ≠ '#')
  match beforeFrag.dropWhile (fun c => c ≠ '?') with
  | _ :: q => q
  | [] => []

/-- The `(protocol minus colon, raw query)` view of `new URL(s)`;
`none` models the constructor throwing. -/
def jsURLMagnetView (s : String) : Option (List Char × List Char) :=
  let cs := removeTabNl (((s.toList.dropWhile isC0OrSpace).reverse.dropWhile
    isC0OrSpace).reverse)
  match parseScheme cs with
  | none => none
  | some (scheme, rest) =>
    match rest with
    | '/' :: '/' :: afterSlashes =>
      let auth := afterSlashes.takeWhile (fun c => ¬(c = '/' ∨ c = '?' ∨ c = '#'))
      let tail := afterSlashes.dropWhile (fun c => ¬(c = '/' ∨ c = '?' ∨ c = '#'))
      if validateAuthority auth then some (scheme, queryOf tail) else none
    | _ => some (scheme, queryOf rest)

/-- UTF-8 encoding of one scalar value. -/
def utf8EncodeChar (c : Char) : List Nat :=
  let n := c.toNat
  if n < 0x80 then [n]
  else if n < 0x800 then [0xc0 + n / 64, 0x80 + n % 64]
  else if n < 0x10000 then [0xe0 + n / 4096, 0x80 + n / 64 % 64, 0x80 + n % 64]
  else [0xf0 + n / 262144, 0x80 + n / 4096 % 64, 0x80 + n / 64 % 64, 0x80 + n % 64]

/-- Percent-decode a query string to bytes: `%HH` becomes the byte, every
other char contributes its UTF-8 bytes. -/
def percentDecodeChars : List Char → List Nat
  | '%' :: h1 :: h2 :: rest =>
    if isHexCharCI h1 ∧ isHexCharCI h2 then
      match digitVal h1, digitVal h2 with
      | some d1, some d2 => (d1 * 16 + d2) :: percentDecodeChars rest
      | _, _ => 0x25 :: percentDecodeChars (h1 :: h2 :: rest)
    else 0x25 :: percentDecodeChars (h1 :: h2 :: rest)
  | c :: rest => utf8EncodeChar c ++ percentDecodeChars rest
  | [] => []

/-- U+FFFD. -/
def replacementChar : Char := Char.ofNat 0xfffd

/-- UTF-8 decoding with U+FFFD replacement for invalid sequences
(resuming at the offending byte). -/
def utf8DecodeReplace : Nat → List Nat → List Char
  | 0, _ => []
  | _ + 1, [] => []
  | fuel + 1, b :: rest =>
    if b < 0x80 then Char.ofNat b :: utf8DecodeReplace fuel rest
    else if 0xc2 ≤ b ∧ b ≤ 0xdf then
      match rest with
      | c1 :: r1 =>
        if 0x80 ≤ c1 ∧ c1 ≤ 0xbf then
          Char.ofNat ((b - 0xc0) * 64 + (c1 - 0x80)) :: utf8DecodeReplace fuel r1
        else replacementChar :: utf8DecodeReplace fuel rest
      | [] => [replacementChar]
    else if 0xe0 ≤ b ∧ b ≤ 0xef then
      match rest with
      | c1 :: r1 =>
        let lo1 := if b = 0xe0 then 0xa0 else 0x80
        let hi1 := if b = 0xed then 0x9f else 0xbf
        if lo1 ≤ c1 ∧ c1 ≤ hi1 then
          match r1 with
          | c2 :: r2 =>
            if 0x80 ≤ c2 ∧ c2 ≤ 0xbf then
              Char.ofNat ((b - 0xe0) * 4096 + (c1 - 0x80) * 64 + (c2 - 0x80)) ::
                utf8DecodeReplace fuel r2
            else replacementChar :: utf8DecodeReplace fuel r1
          | [] => [replacementChar]
        else replacementChar :: utf8DecodeReplace fuel rest
      | [] => [replacementChar]
    else if 0xf0 ≤ b ∧ b ≤ 0xf4 then
      match rest with
      | c1 :: r1 =>
        let lo1 := if b = 0xf0 then 0x90 else 0x80
        let hi1 := if b = 0xf4 then 0x8f else 0xbf
        if lo1 ≤ c1 ∧ c1 ≤ hi1 then
          match r1 with
          | c2 :: r2 =>
            if 0x80 ≤ c2 ∧ c2 ≤ 0xbf then
              match r2 with
              | c3 :: r3 =>
                if 0x80 ≤ c3 ∧ c3 ≤ 0xbf then
                  Char.ofNat ((b - 0xf0) * 262144 + (c1 - 0x80) * 4096 +
                    (c2 - 0x80) * 64 + (c3 - 0x80)) :: utf8DecodeReplace fuel r3
                else replacementChar :: utf8DecodeReplace fuel r2
              | [] => [replacementChar]
            else replacementChar :: utf8DecodeReplace fuel r1
          | [] => [replacementChar]
        else replacementChar :: utf8DecodeReplace fuel rest
      | [] => [replacementChar]
    else replacementChar :: utf8DecodeReplace fuel rest

/-- One urlencoded token: `+` to space, percent-decode, UTF-8 decode. -/
def formUrlDecode (cs : List Char) : List Char :=
  let bytes := percentDecodeChars (cs.map (fun c => if c = '+' then ' ' else c))
  utf8DecodeReplace (bytes.length + 1) bytes

/-- `application/x-www-form-urlencoded` parse of a raw query. -/
def parseUrlencoded (q : List Char) : List (List Char × List Char) :=
  (splitOnChar '&' q).filterMap fun piece =>
    if piece = [] then none
    else
      let name := piece.takeWhile (fun c => c ≠ '=')
      let value := match piece.dropWhile (fun c => c ≠ '=') with
        | _ :: v => v
        | [] => []
      some (formUrlDecode name, formUrlDecode value)

/-- `url.searchParams.getAll(name)`. -/
def getAllParams (q : List Char) (name : List Char) : List (List Char) :=
  (parseUrlencoded q).filterMap fun p => if p.1 = name then some p.2 else none

/-- `MagnetInfo` from magnet.ts. -/
structure MagnetInfo where
  infoHash : List Char
  sources : List (List Char)
deriving DecidableEq, Repr

/-- The RFC 4648 base32 alphabet of magnet.ts. -/
def base32Alphabet : List Char :=
  "ABCDEFGHIJKLMNOPQRSTUVWXYZ234567".toList

/-- Lowercase hex digit. -/
def hexDigitChar (d : Nat) : Char :=
  if d < 10 then decDigitChar d
  else match d with
    | 10 => 'a' | 11 => 'b' | 12 => 'c' | 13 => 'd' | 14 => 'e' | _ => 'f'

/-- Two lowercase hex digits of a byte (`Buffer.toString("hex")`). -/
def byteToHex (b : Nat) : List Char :=
  [hexDigitChar (b / 16), hexDigitChar (b % 16)]

/-- The accumulation loop of `base32ToHex`.  JS `<<`/`>>` coerce through
32-bit two's complement; `% 2^32` keeps exactly the bits those operators
keep, and `(buffer >> bits) & 0xff` only ever reads low bits, which the
truncation preserves. -/
def base32Fold : List Char → Nat → Nat → List Nat → Option (List Nat)
  | [], _, _, bytes => some bytes
  | c :: rest, buffer, bits, bytes =>
    match base32Alphabet.findIdx? (fun a => a = c) with
    | none => none
    | some idx =>
      let buffer2 := (buffer * 32 + idx) % 2 ^ 32
      let bits2 := bits + 5
      if 8 ≤ bits2 then
        base32Fold rest buffer2 (bits2 - 8) (bytes ++ [buffer2 / 2 ^ (bits2 - 8) % 256])
      else base32Fold rest buffer2 bits2 bytes

/-- `base32ToHex` from magnet.ts. -/
def base32ToHex (value : List Char) : Option (List Char) :=
  let cleaned := ((value.reverse.dropWhile (fun c => c = '=')).reverse).map asciiUpper
  match base32Fold cleaned 0 0 [] with
  | none => none
  | some bytes => if bytes = [] then none else some (bytes.flatMap byteToHex)

/-- `/^[a-f0-9]{40}$/i.test(value)`. -/
def isHex40 (v : List Char) : Bool :=
  v.length = 40 ∧ v.all isHexCharCI

/-- `[a-zA-Z2-7]`. -/
def isBase32Char (c : Char) : Bool :=
  isAsciiAlpha c ∨ (50 ≤ c.toNat ∧ c.toNat ≤ 55)

/-- `/^[a-z2-7]{32}$/i.test(value)`. -/
def isBase32x32 (v : List Char) : Bool :=
  v.length = 32 ∧ v.all isBase32Char

/-- `normalizeInfoHash` from magnet.ts. -/
def normalizeInfoHash (value : List Char) : Option (List Char) :=
  if isHex40 value then some (value.map asciiLower)
  else if isBase32x32 value then base32ToHex value
  else none

/-- `tracker:`-prefix a tracker value unless already prefixed. -/
def prefixTracker (t : List Char) : List Char :=
  if t.take 8 = "tracker:".toList then t else "tracker:".toList ++ t

/-- `parseMagnet` from magnet.ts over the URL model. -/
def parseMagnet (magnetUri : String) : Option MagnetInfo :=
  match jsURLMagnetView magnetUri with
  | none => none
  | some (scheme, query) =>
    if scheme ≠ "magnet".toList then none
    else
      let xtParams := getAllParams query "xt".toList
      match xtParams.find? (fun v => (v.map asciiLower).take 9 = "urn:btih:".toList) with
      | none => none
      | some xt =>
        match normalizeInfoHash (xt.drop 9) with
        | none => none
        | some infoHash =>
          let trackers := (getAllParams query "tr".toList).filter (fun t => t ≠ [])
          some ⟨infoHash, dedupFirst (trackers.map prefixTracker)⟩

/-- Claim C4's acceptance condition exactly as stated: scheme `magnet:`
and SOME `urn:btih:`-prefixed `xt` whose remainder is 40 hex chars or 32
base32 chars. -/
def specAcceptsMagnetC4 (uri : String) : Bool :=
  match jsURLMagnetView uri with
  | none => false
  | some (scheme, query) =>
    scheme = "magnet".toList ∧
      (getAllParams query "xt".toList).any fun v =>
        (v.map asciiLower).take 9 = "urn:btih:".toList ∧
          (isHex40 (v.drop 9) ∨ isBase32x32 (v.drop 9))

/-- The amended acceptance condition: the FIRST `urn:btih:`-prefixed `xt`
must have a valid remainder. -/
def specAcceptsMagnetAmended (uri : String) : Bool :=
  match jsURLMagnetView uri with
  | none => false
  | some (scheme, query) =>
    decide (scheme = "magnet".toList) &&
      (match (getAllParams query "xt".toList).find?
          (fun v => (v.map asciiLower).take 9 = "urn:btih:".toList) with
        | none => false
        | some xt => isHex40 (xt.drop 9) ∨ isBase32x32 (xt.drop 9))

/-- Claim C4's description of the returned sources. -/
def specMagnetSources (query : List Char) : List (List Char) :=
  dedupFirst (((getAllParams query "tr".toList).filter (fun t => t ≠ [])).map
    prefixTracker)

/-- `[0-9a-f]`: a lowercase hex digit (the character class of the shape
regex `^[0-9a-f]\x7b40\x7d$` in claim C9). -/
def isLowerHexChar (c : Char) : Bool :=
  (48 ≤ c.toNat ∧ c.toNat ≤ 57) ∨ (97 ≤ c.toNat ∧ c.toNat ≤ 102)

/-! ### Aggregator (src/unnamed/part_004): merge, filter, sort, binge group,
cache write

The stream handler's fresh (non-cache-hit) path is modelled as a pure
function of the settled scraper results: `none` stands for a rejected
promise, `some streams` for a fulfilled `StreamResponse`.  JS objects are
modelled as values; the in-place mutation `existing.sources = ...` through
the `seen` map is modelled by updating the already-emitted element of the
accumulator, which is observationally identical because the emitted list
and the map share the same object references. -/

/-- `behaviorHints.proxyHeaders` (Records become association lists). -/
structure ProxyHeaders where
  request : Option (List (List Char × List Char))
  response : Option (List (List Char × List Char))
deriving DecidableEq, Repr

/-- `Stream["behaviorHints"]` from types.ts. -/
structure BehaviorHints where
  countryWhitelist : Option (List (List Char))
  notWebReady : Option Bool
  bingeGroup : Option (List Char)
  proxyHeaders : Option ProxyHeaders
  videoHash : Option (List Char)
  videoSize : Option ℚ
  filename : Option (List Char)
deriving DecidableEq, Repr

/-- `{}`: the empty object a spread of an absent `behaviorHints` yields. -/
def emptyBehaviorHints : BehaviorHints :=
  ⟨none, none, none, none, none, none, none⟩

/-- `Stream` from types.ts; optional fields are `Option`s, absent is
`none`. -/
structure Stream where
  name : Option (List Char)
  description : Option (List Char)
  url : Option (List Char)
  infoHash : Option (List Char)
  fileIdx : Option Nat
  sources : Option (List (List Char))
  behaviorHints : Option BehaviorHints
  seeders : Option Int
deriving DecidableEq, Repr

/-- `StreamResponse` from types.ts. -/
structure StreamResponse where
  streams : List Stream
deriving DecidableEq, Repr

/-- The dedupe identity `stream.infoHash ?? stream.url ?? ""` (nullish
coalescing: an empty string does not fall through). -/
def streamKey (s : Stream) : List Char :=
  match s.infoHash with
  | some v => v
  | none =>
    match s.url with
    | some u => u
    | none => []

/-- `typeof seeders === "number" ? seeders : 0` from sortBySeedersDesc. -/
def seedersVal (s : Stream) : Int :=
  s.seeders.getD 0

/-- One duplicate merge: `if (existing.sources || stream.sources)` (any
array, even empty, is truthy) build `new Set([...existing.sources ?? [],
...stream.sources ?? []])` and assign it only `if (merged.size > 0)`. -/
def mergeSourcesJS (e d : Option (List (List Char))) : Option (List (List Char)) :=
  if e ≠ none ∨ d ≠ none then
    let merged := dedupFirst (e.getD [] ++ d.getD [])
    if merged ≠ [] then some merged else e
  else e

/-- Mutating `existing.sources` through the `seen` map: update the
already-kept stream with the matching key. -/
def mergeIntoAcc (acc : List Stream) (k : List Char) (d : Stream) : List Stream :=
  acc.map fun t =>
    if streamKey t = k then { t with sources := mergeSourcesJS t.sources d.sources } else t

/-- The dedupe filter of `createAddonInterface` over the concatenated
fulfilled streams; `acc` is the list of streams kept so far (the shared
`seen` map holds exactly the kept streams, keyed by their `streamKey`). -/
def dedupeAux : List Stream → List Stream → List Stream
  | acc, [] => acc
  | acc, s :: rest =>
    if streamKey s = [] then dedupeAux acc rest
    else if acc.any (fun t => streamKey t = streamKey s) then
      dedupeAux (mergeIntoAcc acc (streamKey s) s) rest
    else dedupeAux (acc ++ [s]) rest

/-- The merge stage: dedupe the call-order concatenation. -/
def dedupeStreams (l : List Stream) : List Stream :=
  dedupeAux [] l

/-- Claim C1's description of the kept stream's `sources`: when later
duplicates exist and the set-union of the group's source lists is
non-empty, the union (first occurrences, duplicates removed); otherwise
the first stream's own `sources` untouched. -/
def specGroupSources (first : Stream) (dups : List Stream) : Option (List (List Char)) :=
  let u := dedupFirst (first.sources.getD [] ++ dups.flatMap (fun d => d.sources.getD []))
  if dups ≠ [] ∧ u ≠ [] then some u else first.sources

/-- Claim C1's merge stage, written from the claim's words: keep the first
stream of each non-empty key in call-order with its fields intact apart
from `sources`, drop every later stream with a seen key after merging its
sources. -/
def specDedupeAux : List (List Char) → List Stream → List Stream
  | _, [] => []
  | seenKeys, s :: rest =>
    if streamKey s = [] ∨ streamKey s ∈ seenKeys then specDedupeAux seenKeys rest
    else
      { s with sources :=
          specGroupSources s (rest.filter (fun d => streamKey d = streamKey s)) }
        :: specDedupeAux (streamKey s :: seenKeys) rest

/-- Claim C1's merge stage over a whole list. -/
def specDedupe (l : List Stream) : List Stream :=
  specDedupeAux [] l

/-- The result of all later same-key merges into a kept stream (used to
state the accumulator invariant of the dedupe proof). -/
def mergeTail (t : Stream) (rest : List Stream) : Stream :=
  let merged := (rest.filter (fun d => streamKey d = streamKey t)).foldl
    (fun cur d => mergeSourcesJS cur d.sources) t.sources
  { t with sources := merged }

/-- JS truthiness of an optional string (absent or empty is falsy). -/
def jsTruthyStrOpt (o : Option (List Char)) : Bool :=
  match o with
  | some v => v ≠ []
  | none => false

/-- `isZeroSeederMagnet` from the aggregator. -/
def isZeroSeederMagnet (s : Stream) : Bool :=
  match s.seeders with
  | none => false
  | some n =>
    if 0 < n then false
    else if jsTruthyStrOpt s.infoHash then true
    else
      match s.url with
      | none => false
      | some u => u ≠ [] ∧ u.take 8 = "magnet:?".toList

/-- Stable insertion for the descending-seeders sort: walk past strictly
greater elements, stop at the first less-or-equal one, so equal seeders
keep their original relative order. -/
def insertSeeders (s : Stream) : List Stream → List Stream
  | [] => [s]
  | t :: rest =>
    if seedersVal s < seedersVal t then t :: insertSeeders s rest
    else s :: t :: rest

/-- `filteredStreams.slice().sort(sortBySeedersDesc)`.  ECMAScript
`Array.prototype.sort` is a stable sort and the comparator
`bSeeds - aSeeds` induces a total preorder, so its output is the unique
stably-sorted permutation; this structural stable insertion sort computes
exactly that permutation. -/
def sortStreams (l : List Stream) : List Stream :=
  l.foldr insertSeeders []

/-- `/🔗\s*([^•]+)\s*$/` on one line: the first `🔗` whose (non-empty)
suffix contains no `•` matches, and the trimmed capture is that suffix
without surrounding whitespace. -/
def lineSourceMatchF : List Char → Option (List Char)
  | [] => none
  | c :: rest =>
    if c = '🔗' ∧ rest ≠ [] ∧ rest.all (fun x => x ≠ '•') then some (jsTrimWsList rest)
    else lineSourceMatchF rest

/-- `/\(([^)]+)\)\s*$/` on one line: the first `(` followed by at least
one non-`)` character, a `)`, and only whitespace to the end; the capture
is trimmed by the caller. -/
def lineParenMatchF : List Char → Option (List Char)
  | [] => none
  | c :: rest =>
    if c = '(' then
      match rest.dropWhile (fun x => x ≠ ')') with
      | ')' :: tail =>
        if rest.takeWhile (fun x => x ≠ ')') ≠ [] ∧ tail.all jsIsWs then
          some (jsTrimWsList (rest.takeWhile (fun x => x ≠ ')')))
        else lineParenMatchF rest
      | _ => lineParenMatchF rest
    else lineParenMatchF rest

/-- The per-line loop of `extractSourceFromDescription`: try the `🔗`
pattern, then the trailing-parenthesis pattern. -/
def findSourceInLines : List (List Char) → Option (List Char)
  | [] => none
  | line :: rest =>
    match lineSourceMatchF line with
    | some v => some v
    | none =>
      match lineParenMatchF line with
      | some v => some v
      | none => findSourceInLines rest

/-- `extractSourceFromDescription`: split on newlines, scan from the last
line backwards (an absent or empty description yields null). -/
def extractSourceFromDescription (d : Option (List Char)) : Option (List Char) :=
  match d with
  | none => none
  | some text =>
    if text = [] then none
    else findSourceInLines (splitOnChar '\n' text).reverse

/-- `[a-z0-9]`, the class kept by `normalizeBingeSegment`. -/
def isLowerAlnumChar (c : Char) : Bool :=
  (97 ≤ c.toNat ∧ c.toNat ≤ 122) ∨ (48 ≤ c.toNat ∧ c.toNat ≤ 57)

/-- The global replace `[^a-z0-9]+` → `"-"`: collapse each run of
non-kept characters to a single dash. -/
def dashRunsAux (prevNon : Bool) : List Char → List Char
  | [] => []
  | c :: r =>
    if isLowerAlnumChar c then c :: dashRunsAux false r
    else if prevNon then dashRunsAux true r
    else '-' :: dashRunsAux true r

/-- `normalizeBingeSegment` (ASCII lowercasing, see `asciiLower`):
lowercase, dash out non-alphanumeric runs, strip edge dashes. -/
def normalizeBingeSegment (value : List Char) : List Char :=
  let dashed := dashRunsAux false (value.map asciiLower)
  ((dashed.dropWhile (fun c => c = '-')).reverse.dropWhile (fun c => c = '-')).reverse

/-- `extractStreamQuality`: quality hint of
`[description, name].filter(Boolean).join(" ")`. -/
def extractStreamQuality (s : Stream) : Option (List Char) :=
  extractQualityHint
    (List.intercalate (" ".toList)
      (([s.description, s.name].filterMap (fun o => o)).filter (fun t => t ≠ [])))

/-- JS truthiness of an optional number (absent or zero is falsy). -/
def jsTruthyNatOpt (o : Option Nat) : Bool :=
  match o with
  | some n => n ≠ 0
  | none => false

/-- The truthiness test `stream.behaviorHints?.bingeGroup`. -/
def bingeGroupTruthy (o : Option BehaviorHints) : Bool :=
  match o with
  | some bh => jsTruthyStrOpt bh.bingeGroup
  | none => false

/-- `applyBingeGroup` from the aggregator. -/
def applyBingeGroup (stream : Stream) (parsed : ParsedStremioId) (tp : List Char) : Stream :=
  if tp ≠ "series".toList ∨ ¬jsTruthyNatOpt parsed.season = true ∨
      ¬jsTruthyNatOpt parsed.episode = true then stream
  else if bingeGroupTruthy stream.behaviorHints then stream
  else
    let quality := (extractStreamQuality stream).getD ("unknown".toList)
    let source := normalizeBingeSegment
      ((extractSourceFromDescription stream.description).getD ("stream".toList))
    let baseHints := stream.behaviorHints.getD emptyBehaviorHints
    let newHints := { baseHints with
      bingeGroup := some ("barestreams-".toList ++ source ++ "-".toList ++ quality) }
    { stream with behaviorHints := some newHints }

/-- `stripStreamExtras`: destructure away `seeders`, keep the rest. -/
def stripStreamExtras (s : Stream) : Stream :=
  { s with seeders := none }

/-- `buildCacheKey` (`none` models the thrown BadRequestError for an
invalid type; `parsed.season && parsed.episode` is JS truthiness). -/
def buildCacheKey (tp : List Char) (parsed : ParsedStremioId) : Option (List Char) :=
  if tp = "movie".toList then
    some ("stream:movie:".toList ++ parsed.baseId.toList)
  else if tp ≠ "series".toList then none
  else if jsTruthyNatOpt parsed.season ∧ jsTruthyNatOpt parsed.episode then
    some ("stream:series:".toList ++ parsed.baseId.toList ++ ":".toList ++
      natDecDigits (parsed.season.getD 0) ++ ":".toList ++
      natDecDigits (parsed.episode.getD 0))
  else some ("stream:series:".toList ++ parsed.baseId.toList)

/-- The flatMap over settled results (a rejected promise contributes
nothing) followed by the dedupe filter. -/
def dedupeSettled (settled : List (Option (List Stream))) : List Stream :=
  dedupeStreams (settled.flatMap (fun r => r.getD []))

/-- The zero-seeder-magnet filter stage. -/
def filteredOf (settled : List (Option (List Stream))) : List Stream :=
  (dedupeSettled settled).filter (fun s => !isZeroSeederMagnet s)

/-- The sorted stage (descending internal seeder counts, stable). -/
def sortedOf (settled : List (Option (List Stream))) : List Stream :=
  sortStreams (filteredOf settled)

/-- The fresh (non-cache-hit) path of the stream handler as a function of
the settled scraper results: the returned response, and the cache write
`setCache(key, JSON.stringify(response))` as an optional key/response pair
(`none` when nothing is written; JSON encoding and the Redis connection
are outside the model).  The outer `none` models the BadRequestError
thrown for an invalid type. -/
def handleStreamFresh (tp : List Char) (parsed : ParsedStremioId)
    (settled : List (Option (List Stream))) :
    Option (StreamResponse × Option (List Char × StreamResponse)) :=
  match buildCacheKey tp parsed with
  | none => none
  | some key =>
    let response : StreamResponse :=
      ⟨(sortedOf settled).map (fun s => stripStreamExtras (applyBingeGroup s parsed tp))⟩
    some (response, if 0 < response.streams.length then some (key, response) else none)


/-! ### IMDb TSV lookup (src/imdb/index.ts, claim C6)

The dataset file is modelled as its list of characters; the code reads
bytes and decodes each line as UTF-8, and on the ASCII alphabet of IMDb
ids, tabs and newlines, byte offsets and character offsets coincide.  The
buffered `findLineStart`/`readLineForward` loops compute exactly the
functions below. -/

/-- The first tab-separated column: `line.slice(0, tabIndex)`, the whole
line when there is no tab. -/
def keyOf (l : List Char) : List Char :=
  l.takeWhile (fun c => c ≠ '\t')

/-- JS string `<`: lexicographic comparison of UTF-16 code units (equal
to code-point order on the basic multilingual plane, which covers the
ASCII tconst keys). -/
def listLt : List Char → List Char → Bool
  | [], [] => false
  | [], _ :: _ => true
  | _ :: _, [] => false
  | a :: as, b :: bs =>
    if a.toNat < b.toNat then true
    else if b.toNat < a.toNat then false
    else listLt as bs

/-- `findLineStart`: the position just after the last newline strictly
before `offset`, or 0. -/
def lineStartAt (file : List Char) (offset : Nat) : Nat :=
  match (file.take offset).reverse.findIdx? (fun c => c = '\n') with
  | some k => offset - k
  | none => 0

/-- `readLineForward`: the position of the next newline at or after
`start`, or the file size. -/
def lineEndAt (file : List Char) (start : Nat) : Nat :=
  match (file.drop start).findIdx? (fun c => c = '\n') with
  | some k => start + k
  | none => file.length

/-- `readLineAtOffset`: clamp the offset, back up to the line start, read
to the line end; `(line, start, end)`. -/
def lineAt (file : List Char) (offset : Nat) : List Char × Nat × Nat :=
  let bounded := min offset file.length
  let start := lineStartAt file bounded
  let e := lineEndAt file start
  ((file.drop start).take (e - start), start, e)

/-- The `while (low <= high)` loop of `findLineByTconst`, with explicit
fuel (outer `none` = fuel exhausted; proved unreachable for well-formed
files).  `low`/`high` are integers as in the code (`high` can be -1); the
division `(low + high) / 2` (Lean floor division) equals `Math.floor` for
every argument, and `low` is non-negative on every reachable state. -/
def bsearchGo (file : List Char) (tconst : List Char) (dataStart : Nat) :
    Nat → Int → Int → Option (Option (List Char))
  | 0, _, _ => none
  | fuel + 1, low, high =>
    if low ≤ high then
      let r := lineAt file ((low + high) / 2).toNat
      if r.1 = [] then some none
      else if r.2.1 < dataStart then
        bsearchGo file tconst dataStart fuel (dataStart : Int) high
      else if keyOf r.1 = tconst then some (some r.1)
      else if listLt (keyOf r.1) tconst then
        bsearchGo file tconst dataStart fuel ((r.2.2 : Int) + 1) high
      else bsearchGo file tconst dataStart fuel low ((r.2.1 : Int) - 1)
    else some none

/-- `findLineByTconst` over the file contents. -/
def findLineByTconst (file : List Char) (tconst : List Char) :
    Option (Option (List Char)) :=
  let header := lineAt file 0
  let dataStart := min (header.2.2 + 1) file.length
  bsearchGo file tconst dataStart (file.length + 2) (dataStart : Int)
    ((file.length : Int) - 1)

/-- `parseNumber` from imdb/index.ts: falsy or `\N` is null, otherwise
`Number(value)` kept only when finite (`jsStrToNumberQ` is already `none`
for NaN and ±Infinity). -/
def parseNumberJS (value : List Char) : Option ℚ :=
  if value = [] ∨ value = "\\N".toList then none
  else jsStrToNumberQ value

/-- `parseTitleBasics`: destructure the nine tab-separated fields.  A
missing field is `undefined`, which behaves exactly like the empty string
in every use below (`undefined === "1"` is false, `parseNumber` takes the
falsy path, `genres && ...` is falsy). -/
def parseTitleBasics (line : List Char) : TitleBasics :=
  let parts := splitOnChar '\t' line
  let genres := parts.getD 8 []
  { tconst := parts.getD 0 []
    titleType := parts.getD 1 []
    primaryTitle := parts.getD 2 []
    originalTitle := parts.getD 3 []
    isAdult := parts.getD 4 [] = "1".toList
    startYear := parseNumberJS (parts.getD 5 [])
    endYear := parseNumberJS (parts.getD 6 [])
    runtimeMinutes := parseNumberJS (parts.getD 7 [])
    genres :=
      if genres ≠ [] ∧ genres ≠ "\\N".toList then splitOnChar ',' genres else [] }

/-- `getTitleBasics`: memoized lookup.  The cache is an association list,
newest first (`Map.set`/`Map.get`); `file = none` models a filesystem
error (the `catch` makes `line` null); the outer `none` is the fuel
artifact of the loop model, unreachable for well-formed files. -/
def getTitleBasics (file : Option (List Char))
    (cache : List (List Char × Option TitleBasics)) (tconst : List Char) :
    Option (Option TitleBasics × List (List Char × Option TitleBasics)) :=
  match cache.find? (fun p => p.1 = tconst) with
  | some p => some (p.2, cache)
  | none =>
    match file with
    | none => some (none, (tconst, none) :: cache)
    | some f =>
      match findLineByTconst f tconst with
      | none => none
      | some lineOpt =>
        let parsed := match lineOpt with
          | some line => if line = [] then none else some (parseTitleBasics line)
          | none => none
        some (parsed, (tconst, parsed) :: cache)

/-- The data region of a TSV file: each data line followed by `\n`. -/
def tailOf (ls : List (List Char)) : List Char :=
  ls.flatMap (fun l => l ++ ['\n'])

/-- A header line, a newline, then the data region. -/
def tsvFile (header : List Char) (dataLines : List (List Char)) : List Char :=
  header ++ '\n' :: tailOf dataLines

/-- Start offset of the `i`-th data line, counting from `d`. -/
def spanStart (d : Nat) : List (List Char) → Nat → Nat
  | _, 0 => d
  | [], _ + 1 => d
  | l :: ls, i + 1 => spanStart (d + (l.length + 1)) ls i

/-- Each element strictly `listLt`-below all later ones. -/
def pairwiseLtB : List (List Char) → Bool
  | [] => true
  | a :: r => r.all (fun b => listLt a b) && pairwiseLtB r

/-- Claim C6's well-formedness: newline-free header, non-empty
newline-free data lines, first columns strictly increasing. -/
def wellformedTsv (header : List Char) (dataLines : List (List Char)) : Bool :=
  header.all (fun c => c ≠ '\n') &&
    dataLines.all (fun l => decide (l ≠ []) && l.all (fun c => c ≠ '\n')) &&
    pairwiseLtB (dataLines.map keyOf)


/-! ### Lemmas for normalizeQuery and the episode suffix -/

theorem map_eq_self_of {α : Type} {f : α → α} {l : List α}
    (h : ∀ c ∈ l, f c = c) : l.map f = l := by
  induction l with
  | nil => rfl
  | cons a t ih =>
    rw [List.map_cons, h a (List.mem_cons_self a t),
      ih (fun c hc => h c (List.mem_cons_of_mem a hc))]

theorem alnum_word {c : Char} (h : isAsciiAlnum c = true) : jsIsWordChar c = true := by
  simp only [isAsciiAlnum, decide_eq_true_eq] at h
  unfold jsIsWordChar
  rw [decide_eq_true_eq]
  omega

theorem alnum_not_ws {c : Char} (h : isAsciiAlnum c = true) : jsIsWs c = false := by
  simp only [isAsciiAlnum, decide_eq_true_eq] at h
  unfold jsIsWs
  rw [decide_eq_false_iff_not]
  omega

theorem digit_alnum {c : Char} (h : isDigitChar c = true) : isAsciiAlnum c = true := by
  simp only [isDigitChar, decide_eq_true_eq] at h
  unfold isAsciiAlnum
  rw [decide_eq_true_eq]
  omega

theorem strip_eq_self_of_alnum {c : Char} (h : isAsciiAlnum c = true) :
    stripNonAlnumChar c = c := by
  unfold stripNonAlnumChar
  rw [if_pos (Or.inl h)]

theorem dropWhile_append_nil {p : Char → Bool} {l1 : List Char} (l2 : List Char)
    (h : l1.dropWhile p = []) : (l1 ++ l2).dropWhile p = l2.dropWhile p := by
  induction l1 with
  | nil => rfl
  | cons a t ih =>
    rw [List.dropWhile_cons] at h
    by_cases hp : p a = true
    · rw [List.cons_append, List.dropWhile_cons, if_pos hp]
      exact ih (by simpa [hp] using h)
    · rw [if_neg hp] at h
      exact absurd h (List.cons_ne_nil a t)

theorem dropWhile_append_ne {p : Char → Bool} {l1 : List Char} (l2 : List Char)
    (h : l1.dropWhile p ≠ []) : (l1 ++ l2).dropWhile p = l1.dropWhile p ++ l2 := by
  induction l1 with
  | nil => exact absurd rfl h
  | cons a t ih =>
    rw [List.dropWhile_cons] at h
    by_cases hp : p a = true
    · rw [if_pos hp] at h
      rw [List.cons_append, List.dropWhile_cons, if_pos hp,
        List.dropWhile_cons, if_pos hp]
      exact ih h
    · rw [List.cons_append, List.dropWhile_cons, if_neg hp,
        List.dropWhile_cons, if_neg hp, List.cons_append]

theorem takeWhile_append_nil {p : Char → Bool} {l1 : List Char} (l2 : List Char)
    (h : l1.dropWhile p = []) : (l1 ++ l2).takeWhile p = l1 ++ l2.takeWhile p := by
  induction l1 with
  | nil => rfl
  | cons a t ih =>
    rw [List.dropWhile_cons] at h
    by_cases hp : p a = true
    · rw [List.cons_append, List.takeWhile_cons, if_pos hp,
        ih (by simpa [hp] using h), List.cons_append]
    · rw [if_neg hp] at h
      exact absurd h (List.cons_ne_nil a t)

theorem takeWhile_append_ne {p : Char → Bool} {l1 : List Char} (l2 : List Char)
    (h : l1.dropWhile p ≠ []) : (l1 ++ l2).takeWhile p = l1.takeWhile p := by
  induction l1 with
  | nil => exact absurd rfl h
  | cons a t ih =>
    rw [List.dropWhile_cons] at h
    by_cases hp : p a = true
    · rw [if_pos hp] at h
      rw [List.cons_append, List.takeWhile_cons, List.takeWhile_cons,
        if_pos hp, if_pos hp, ih h]
    · rw [List.cons_append, List.takeWhile_cons, List.takeWhile_cons,
        if_neg hp, if_neg hp]

theorem collapseWsAux_of_no_ws {l : List Char} (h : ∀ c ∈ l, jsIsWs c = false) :
    ∀ prev, collapseWsAux prev l = l := by
  induction l with
  | nil => intro prev; rfl
  | cons a t ih =>
    intro prev
    unfold collapseWsAux
    rw [if_neg (by simp [h a (List.mem_cons_self a t)]),
      ih (fun c hc => h c (List.mem_cons_of_mem a hc))]

theorem collapse_sep {sfx : List Char}
    (hal : ∀ c ∈ sfx, isAsciiAlnum c = true) :
    ∀ (y : List Char) (prev : Bool),
      (∃ w, collapseWsAux prev (y ++ ' ' :: sfx) = w ++ ' ' :: sfx) ∨
        (prev = true ∧ collapseWsAux prev (y ++ ' ' :: sfx) = sfx) := by
  have hnws : ∀ c ∈ sfx, jsIsWs c = false := fun c hc => alnum_not_ws (hal c hc)
  intro y
  induction y with
  | nil =>
    intro prev
    rw [List.nil_append]
    unfold collapseWsAux
    rw [if_pos (by decide), collapseWsAux_of_no_ws hnws true]
    cases prev
    · exact Or.inl ⟨[], rfl⟩
    · exact Or.inr ⟨rfl, rfl⟩
  | cons c y ih =>
    intro prev
    rw [List.cons_append]
    unfold collapseWsAux
    by_cases hc : jsIsWs c = true
    · rw [if_pos hc]
      rcases ih true with ⟨w, hw⟩ | ⟨_, hr⟩
      · exact Or.inl ⟨(if prev then [] else [' ']) ++ w, by rw [hw, List.append_assoc]⟩
      · cases prev
        · exact Or.inl ⟨[], by rw [hr]; rfl⟩
        · exact Or.inr ⟨rfl, by rw [hr]; rfl⟩
    · rw [if_neg hc]
      rcases ih false with ⟨w, hw⟩ | ⟨habs, _⟩
      · exact Or.inl ⟨c :: w, by rw [hw]; rfl⟩
      · exact absurd habs (by simp)

theorem dropWhile_eq_self_of_head {p : Char → Bool} {h0 : Char} {t0 : List Char}
    (h : p h0 = false) : (h0 :: t0).dropWhile p = h0 :: t0 := by
  rw [List.dropWhile_cons, if_neg (by simp [h])]

theorem trim_sep {sfx : List Char} (hne : sfx ≠ [])
    (hal : ∀ c ∈ sfx, isAsciiAlnum c = true) (w : List Char) :
    jsTrimWsList (w ++ ' ' :: sfx) = sfx ∨
      ∃ v, jsTrimWsList (w ++ ' ' :: sfx) = v ++ ' ' :: sfx := by
  have hnws : ∀ c ∈ sfx, jsIsWs c = false := fun c hc => alnum_not_ws (hal c hc)
  have hdrop_sfx : sfx.dropWhile jsIsWs = sfx := dropWhile_eq_self_of_not hnws
  have hdrop_rev : sfx.reverse.dropWhile jsIsWs = sfx.reverse :=
    dropWhile_eq_self_of_not (fun c hc => hnws c (List.mem_reverse.mp hc))
  unfold jsTrimWsList
  by_cases hdl : w.dropWhile jsIsWs = []
  · left
    rw [dropWhile_append_nil _ hdl, List.dropWhile_cons, if_pos (by decide),
      hdrop_sfx, hdrop_rev, List.reverse_reverse]
  · right
    refine ⟨w.dropWhile jsIsWs, ?_⟩
    have hrevne : sfx.reverse.dropWhile jsIsWs ≠ [] := by
      rw [hdrop_rev]
      simpa using hne
    have hrev : (w.dropWhile jsIsWs ++ ' ' :: sfx).reverse
        = sfx.reverse ++ (' ' :: (w.dropWhile jsIsWs).reverse) := by simp
    rw [dropWhile_append_ne _ hdl, hrev, dropWhile_append_ne _ hrevne, hdrop_rev]
    simp

theorem tryPossMatch_all_word {t : List Char} (h : ∀ c ∈ t, jsIsWordChar c = true) :
    tryPossMatch t = none := by
  unfold tryPossMatch
  rcases t with _ | ⟨a, r⟩
  · rfl
  · rw [takeWhile_eq_self_of h, dropWhile_eq_nil_of h]
    simp

theorem possScanF_all_word {t : List Char} (h : ∀ c ∈ t, jsIsWordChar c = true) :
    ∀ (fuel : Nat) (prev : Bool), t.length ≤ fuel → possScanF fuel prev t = t := by
  induction t with
  | nil =>
    intro fuel prev _
    cases fuel <;> rfl
  | cons c rest ih =>
    intro fuel prev hfuel
    rcases fuel with _ | f
    · simp at hfuel
    unfold possScanF
    have hc : jsIsWordChar c = true := h c (List.mem_cons_self _ _)
    have hrest : ∀ x ∈ rest, jsIsWordChar x = true :=
      fun x hx => h x (List.mem_cons_of_mem c hx)
    have hlen : rest.length ≤ f := by
      simpa using Nat.le_of_succ_le_succ hfuel
    by_cases hg : (¬prev = true ∧ jsIsWordChar c = true)
    · rw [if_pos hg, tryPossMatch_all_word h]
      rw [hc, ih hrest f true hlen]
    · rw [if_neg hg, hc, ih hrest f true hlen]

theorem takeWhile_length_add_dropWhile_length {p : Char → Bool} (l : List Char) :
    (l.takeWhile p).length + (l.dropWhile p).length = l.length := by
  rw [← List.length_append, List.takeWhile_append_dropWhile]

theorem tryPossMatch_sep {sfx : List Char} (hne : sfx ≠ [])
    (hal : ∀ c ∈ sfx, isAsciiAlnum c = true)
    (hhd : sfx.head? ≠ some 's') (z : List Char) :
    tryPossMatch (z ++ ' ' :: sfx) = none ∨
      ∃ repl z', tryPossMatch (z ++ ' ' :: sfx) = some (repl, z' ++ ' ' :: sfx) ∧
        z'.length < z.length := by
  rcases hsfx : sfx with _ | ⟨h0, t0⟩
  · exact absurd hsfx hne
  subst hsfx
  have hh0a : isAsciiAlnum h0 = true := hal h0 (List.mem_cons_self _ _)
  have hh0nws : jsIsWs h0 = false := alnum_not_ws hh0a
  have hh0s : h0 ≠ 's' := by
    intro heq
    exact hhd (by rw [heq]; rfl)
  have hsw : jsIsWordChar ' ' = false := by decide
  have hsws : jsIsWs ' ' = true := by decide
  have htw1 : (' ' :: h0 :: t0).takeWhile jsIsWordChar = [] := by
    rw [List.takeWhile_cons, if_neg (by simp [hsw])]
  have hdw1 : (' ' :: h0 :: t0).dropWhile jsIsWordChar = ' ' :: h0 :: t0 :=
    dropWhile_eq_self_of_head hsw
  have htws : (' ' :: h0 :: t0).takeWhile jsIsWs = [' '] := by
    rw [List.takeWhile_cons, if_pos hsws, List.takeWhile_cons, if_neg (by simp [hh0nws])]
  have hdws : (' ' :: h0 :: t0).dropWhile jsIsWs = h0 :: t0 := by
    rw [List.dropWhile_cons, if_pos hsws]
    exact dropWhile_eq_self_of_head hh0nws
  unfold tryPossMatch
  by_cases hdz : z.dropWhile jsIsWordChar = []
  · -- the word run covers all of z and is stopped by the separator space
    rw [takeWhile_append_nil _ hdz, htw1, List.append_nil,
      dropWhile_append_nil _ hdz, hdw1]
    by_cases hz : z = []
    · rw [if_pos hz]
      exact Or.inl rfl
    · rw [if_neg hz, htws, hdws, if_neg (List.cons_ne_nil ' ' [])]
      exact Or.inl (by simp [hh0s])
  · rw [takeWhile_append_ne _ hdz, dropWhile_append_ne _ hdz]
    by_cases hw : z.takeWhile jsIsWordChar = []
    · rw [if_pos hw]
      exact Or.inl rfl
    · rw [if_neg hw]
      by_cases hdzz : (z.dropWhile jsIsWordChar).dropWhile jsIsWs = []
      · -- after the word run, everything up to the separator is whitespace;
        -- the whitespace run then swallows the separator and the next char
        -- is the suffix head, which is not the literal s
        rw [takeWhile_append_nil _ hdzz, htws, dropWhile_append_nil _ hdzz, hdws]
        rw [if_neg (by simp)]
        exact Or.inl (by simp [hh0s])
      · rw [takeWhile_append_ne _ hdzz, dropWhile_append_ne _ hdzz]
        by_cases hsp : (z.dropWhile jsIsWordChar).takeWhile jsIsWs = []
        · rw [if_pos hsp]
          exact Or.inl rfl
        · rw [if_neg hsp]
          rcases hq : (z.dropWhile jsIsWordChar).dropWhile jsIsWs with _ | ⟨e1, et⟩
          · exact absurd hq hdzz
          rw [List.cons_append]
          have h1 : 1 ≤ (z.takeWhile jsIsWordChar).length := by
            rcases hx : z.takeWhile jsIsWordChar with _ | ⟨_, _⟩
            · exact absurd hx hw
            · simp
          have h2 : 1 ≤ ((z.dropWhile jsIsWordChar).takeWhile jsIsWs).length := by
            rcases hx : (z.dropWhile jsIsWordChar).takeWhile jsIsWs with _ | ⟨_, _⟩
            · exact absurd hx hsp
            · simp
          have hlen1 := takeWhile_length_add_dropWhile_length (p := jsIsWordChar) z
          have hlen2 := takeWhile_length_add_dropWhile_length (p := jsIsWs)
            (z.dropWhile jsIsWordChar)
          have hlenq := congrArg List.length hq
          simp only [List.length_cons] at hlenq
          by_cases he1 : e1 = 's'
          · rcases het : et with _ | ⟨f1, ft⟩
            · right
              refine ⟨z.takeWhile jsIsWordChar ++ ['s'], [], by simp [he1, hsw], ?_⟩
              simp only [List.length_nil]
              omega
            · by_cases hf1 : jsIsWordChar f1 = true
              · exact Or.inl (by simp [he1, hf1])
              · right
                refine ⟨z.takeWhile jsIsWordChar ++ ['s'], f1 :: ft, by simp [he1, hf1], ?_⟩
                subst het
                simp only [List.length_cons] at hlenq ⊢
                omega
          · exact Or.inl (by simp [he1])

theorem possScanF_sep {sfx : List Char} (hne : sfx ≠ [])
    (hal : ∀ c ∈ sfx, isAsciiAlnum c = true) (hhd : sfx.head? ≠ some 's') :
    ∀ (n : Nat) (y : List Char) (prev : Bool) (fuel : Nat), y.length ≤ n →
      y.length + 1 + sfx.length ≤ fuel →
      ∃ p, possScanF fuel prev (y ++ ' ' :: sfx) = p ++ sfx := by
  have hword : ∀ c ∈ sfx, jsIsWordChar c = true := fun c hc => alnum_word (hal c hc)
  have hsw : jsIsWordChar ' ' = false := by decide
  intro n
  induction n with
  | zero =>
    intro y prev fuel hy hfuel
    rw [List.length_eq_zero.mp (Nat.le_zero.mp hy)]
    rcases fuel with _ | f
    · omega
    rw [List.nil_append]
    unfold possScanF
    rw [if_neg (fun h => absurd h.2 (by decide))]
    refine ⟨[' '], ?_⟩
    rw [hsw, possScanF_all_word hword f false (by omega)]
    rfl
  | succ n ih =>
    intro y prev fuel hy hfuel
    rcases y with _ | ⟨c, y⟩
    · -- same computation as the base case
      rcases fuel with _ | f
      · simp at hfuel
      rw [List.nil_append]
      unfold possScanF
      rw [if_neg (fun h => absurd h.2 (by decide))]
      refine ⟨[' '], ?_⟩
      rw [hsw, possScanF_all_word hword f false (by simp at hfuel; omega)]
      rfl
    · rcases fuel with _ | f
      · simp at hfuel
      rw [List.cons_append]
      unfold possScanF
      simp only [List.length_cons] at hy hfuel
      by_cases hg : (¬prev = true ∧ jsIsWordChar c = true)
      · rw [if_pos hg]
        rw [← List.cons_append]
        rcases tryPossMatch_sep hne hal hhd (c :: y) with hnone | ⟨repl, z', heq, hlt⟩
        · obtain ⟨p, hp⟩ := ih y (jsIsWordChar c) f
            (Nat.le_of_succ_le_succ hy) (by omega)
          refine ⟨c :: p, ?_⟩
          rw [hnone, hp]
          rfl
        · simp only [List.length_cons] at hlt
          obtain ⟨p, hp⟩ := ih z' true f (by omega) (by omega)
          refine ⟨repl ++ p, ?_⟩
          rw [heq]
          show repl ++ possScanF f true (z' ++ ' ' :: sfx) = repl ++ p ++ sfx
          rw [hp, List.append_assoc]
      · rw [if_neg hg]
        obtain ⟨p, hp⟩ := ih y (jsIsWordChar c) f
          (Nat.le_of_succ_le_succ hy) (by omega)
        refine ⟨c :: p, ?_⟩
        rw [hp]
        rfl

theorem decDigitChar_digit (d : Nat) : isDigitChar (decDigitChar d) = true := by
  rcases d with _ | _ | _ | _ | _ | _ | _ | _ | _ | d <;>
    first
    | decide
    | exact (by decide : isDigitChar '9' = true)

theorem natDecDigitsAux_digits :
    ∀ (fuel n : Nat), ∀ c ∈ natDecDigitsAux fuel n, isDigitChar c = true := by
  intro fuel
  induction fuel with
  | zero => intro n c hc; simp [natDecDigitsAux] at hc
  | succ f ih =>
    intro n c hc
    unfold natDecDigitsAux at hc
    by_cases hn : n < 10
    · rw [if_pos hn] at hc
      rcases List.mem_singleton.mp hc with rfl
      exact decDigitChar_digit n
    · rw [if_neg hn] at hc
      rcases List.mem_append.mp hc with h | h
      · exact ih _ c h
      · rcases List.mem_singleton.mp h with rfl
        exact decDigitChar_digit _

theorem pad2_digits (n : Nat) : ∀ c ∈ pad2 n, isDigitChar c = true := by
  intro c hc
  unfold pad2 at hc
  by_cases hlen : (natDecDigits n).length < 2
  · rw [if_pos hlen] at hc
    rcases List.mem_cons.mp hc with rfl | h
    · decide
    · exact natDecDigitsAux_digits _ _ c h
  · rw [if_neg hlen] at hc
    exact natDecDigitsAux_digits _ _ c hc

theorem episodeSuffixChars_ne_nil (s e : Nat) : episodeSuffixChars s e ≠ [] := by
  unfold episodeSuffixChars
  exact List.cons_ne_nil _ _

theorem episodeSuffixChars_alnum (s e : Nat) :
    ∀ c ∈ episodeSuffixChars s e, isAsciiAlnum c = true := by
  intro c hc
  unfold episodeSuffixChars at hc
  rcases List.mem_cons.mp hc with rfl | h
  · decide
  rcases List.mem_append.mp h with h2 | h2
  · exact digit_alnum (pad2_digits s c h2)
  rcases List.mem_cons.mp h2 with rfl | h3
  · decide
  · exact digit_alnum (pad2_digits e c h3)

theorem episodeSuffixChars_head (s e : Nat) :
    (episodeSuffixChars s e).head? ≠ some 's' := by
  intro h
  have h' : some ('S' : Char) = some 's' := h
  exact absurd (Option.some.inj h') (by decide)

theorem normalizeQuery_endsWith_sfx {sfx : List Char} (hne : sfx ≠ [])
    (hal : ∀ c ∈ sfx, isAsciiAlnum c = true) (hhd : sfx.head? ≠ some 's')
    (x : List Char) : sfx <:+ normalizeQuery (x ++ ' ' :: sfx) := by
  have hword : ∀ c ∈ sfx, jsIsWordChar c = true := fun c hc => alnum_word (hal c hc)
  have hnws : ∀ c ∈ sfx, jsIsWs c = false := fun c hc => alnum_not_ws (hal c hc)
  unfold normalizeQuery
  have hmap : (x ++ ' ' :: sfx).map stripNonAlnumChar
      = x.map stripNonAlnumChar ++ ' ' :: sfx := by
    rw [List.map_append, List.map_cons]
    rw [map_eq_self_of (fun c hc => strip_eq_self_of_alnum (hal c hc))]
    rfl
  rw [hmap]
  have hcoll := collapse_sep hal (x.map stripNonAlnumChar)
  rcases hcoll false with ⟨w, hw⟩ | ⟨habs, _⟩
  · rw [show collapseWs (x.map stripNonAlnumChar ++ ' ' :: sfx)
        = collapseWsAux false (x.map stripNonAlnumChar ++ ' ' :: sfx) from rfl, hw]
    rcases trim_sep hne hal w with htr | ⟨v, htr⟩
    · rw [htr]
      unfold possReplace
      rw [possScanF_all_word hword (sfx.length + 1) false (Nat.le_succ _)]
    · rw [htr]
      unfold possReplace
      obtain ⟨p, hp⟩ := possScanF_sep hne hal hhd v.length v false
        ((v ++ ' ' :: sfx).length + 1) (le_refl _) (by simp; omega)
      rw [hp]
      exact ⟨p, rfl⟩
  · exact absurd habs (by simp)

theorem formatEpisodeSuffix_pos {s e : Nat} (hs0 : 0 < s) (he0 : 0 < e) :
    formatEpisodeSuffix (some s) (some e) = some (episodeSuffixChars s e) := by
  show (if s = 0 ∨ e = 0 then none else some (episodeSuffixChars s e))
      = some (episodeSuffixChars s e)
  rw [if_neg (by omega)]

/-- Claim C8: for every parsed request id with season and episode set
(both positive, as `parseStremioId` guarantees) and every resolved
`TitleBasics` record, the `Queries` value built by `buildQueries` has
`episodeSuffix = S{season:02}E{episode:02}`, its `query` ends with that
suffix, and its `fallbackQuery` is the normalized base title. -/
theorem c8_build_queries (basics : Option TitleBasics) (parsed : ParsedStremioId)
    (s e : Nat) (hs : parsed.season = some s) (he : parsed.episode = some e)
    (hs0 : 0 < s) (he0 : 0 < e) :
    (buildQueries basics parsed).episodeSuffix = some (episodeSuffixChars s e) ∧
      episodeSuffixChars s e <:+ (buildQueries basics parsed).query ∧
      (buildQueries basics parsed).fallbackQuery =
        some (normalizeQuery (buildQueries basics parsed).baseTitle) := by
  have hsfx : formatEpisodeSuffix parsed.season parsed.episode
      = some (episodeSuffixChars s e) := by
    rw [hs, he]
    exact formatEpisodeSuffix_pos hs0 he0
  unfold buildQueries
  rw [hsfx]
  dsimp only
  rw [if_pos (Or.inr (by simp))]
  refine ⟨rfl, ?_, rfl⟩
  exact normalizeQuery_endsWith_sfx (episodeSuffixChars_ne_nil s e)
    (episodeSuffixChars_alnum s e) (episodeSuffixChars_head s e) _

/-- Witness for `c8_build_queries` at the concrete id tt1:6:7 with no
IMDb record. -/
theorem c8_build_queries_witness :
    (buildQueries none ⟨"tt1", some 6, some 7⟩).episodeSuffix
        = some (episodeSuffixChars 6 7) ∧
      episodeSuffixChars 6 7 <:+ (buildQueries none ⟨"tt1", some 6, some 7⟩).query ∧
      (buildQueries none ⟨"tt1", some 6, some 7⟩).fallbackQuery =
        some (normalizeQuery (buildQueries none ⟨"tt1", some 6, some 7⟩).baseTitle) :=
  c8_build_queries none ⟨"tt1", some 6, some 7⟩ 6 7 rfl rfl (by decide) (by decide)

/-! ### Lemmas for the display formatter -/

theorem displayImdbTitle_ne_nil (opts : StreamDisplayOptions) :
    displayImdbTitle opts ≠ [] := by
  unfold displayImdbTitle
  by_cases h : jsTrimWsList opts.imdbTitle = []
  · rw [if_pos h]
    decide
  · rw [if_neg h]
    exact h

theorem displaySlugDisplay_ne_nil (opts : StreamDisplayOptions) :
    displaySlugDisplay opts ≠ [] := by
  unfold displaySlugDisplay
  simp

theorem displayInfoLine_ne_nil (opts : StreamDisplayOptions) :
    displayInfoLine opts ≠ [] := by
  unfold displayInfoLine formatInfoLine
  simp

theorem formatEpisode_ne_nil {season episode : Option Nat} {l : List Char}
    (h : formatEpisode season episode = some l) : l ≠ [] := by
  unfold formatEpisode at h
  rcases season with _ | s <;> rcases episode with _ | e <;> simp at h
  rcases h with ⟨-, h2⟩
  rw [← h2]
  simp

/-- Claim C3: `formatStreamDisplay` always returns `name = source-label or
"Stream"`, and a description that is the newline-join of the IMDb title,
an optional `Season S Episode E` line, the slug line
`slug (source or Unknown)`, and the seeders/size info line; on the E2E-3
fixture it yields exactly the documented strings. -/
theorem c3_format_stream_display (opts : StreamDisplayOptions) :
    (formatStreamDisplay opts).name
        = (match opts.source with
            | some s => if jsTrimWsList s = [] then "Stream".toList else jsTrimWsList s
            | none => "Stream".toList) ∧
      (formatStreamDisplay opts).description = specDisplayDescription opts ∧
      formatStreamDisplay
          { imdbTitle := handmaidTitle, season := some 6, episode := some 7,
            torrentName := some handmaidTorrent, seeders := some 231,
            sizeLabel := some "1.4 GB".toList, source := some "EZTV".toList }
        = ⟨"EZTV".toList, "Watch 1080p".toList,
            handmaidTitle ++
              "\nSeason 6 Episode 7\n1080p WEB h264-ETHEL (EZTV)\n🌱 231 • 💾 1.4 GB".toList⟩ := by
  refine ⟨rfl, ?_, by decide⟩
  rcases hep : formatEpisode opts.season opts.episode with _ | l
  · simp only [formatStreamDisplay, specDisplayDescription, hep]
    simp [List.filterMap_cons, List.filter_cons, displayImdbTitle_ne_nil opts,
      displaySlugDisplay_ne_nil opts, displayInfoLine_ne_nil opts]
  · simp only [formatStreamDisplay, specDisplayDescription, hep]
    simp [List.filterMap_cons, List.filter_cons, displayImdbTitle_ne_nil opts,
      displaySlugDisplay_ne_nil opts, displayInfoLine_ne_nil opts,
      formatEpisode_ne_nil hep]

/-! ### Lemmas for the magnet codec (claims C4 and C9) -/

theorem toNat_ofNat_of_lt {n : Nat} (h : n < 0xd800) :
    (Char.ofNat n).toNat = n := by
  unfold Char.ofNat
  rw [dif_pos (Or.inl h)]
  rfl

theorem decide_or_bool (a b : Bool) : decide (a = true ∨ b = true) = (a || b) := by
  cases a <;> cases b <;> decide

theorem mem_base32Alphabet {d : Char}
    (h : (65 ≤ d.toNat ∧ d.toNat ≤ 90) ∨ (50 ≤ d.toNat ∧ d.toNat ≤ 55)) :
    d ∈ base32Alphabet := by
  have h26 : ∀ m : Nat, m < 26 → Char.ofNat (65 + m) ∈ base32Alphabet := by decide
  have h6 : ∀ m : Nat, m < 6 → Char.ofNat (50 + m) ∈ base32Alphabet := by decide
  rcases h with ⟨h1, h2⟩ | ⟨h1, h2⟩
  · have hm := h26 (d.toNat - 65) (by omega)
    have he : 65 + (d.toNat - 65) = d.toNat := by omega
    rw [he, Char.ofNat_toNat] at hm
    exact hm
  · have hm := h6 (d.toNat - 50) (by omega)
    have he : 50 + (d.toNat - 50) = d.toNat := by omega
    rw [he, Char.ofNat_toNat] at hm
    exact hm

theorem asciiUpper_base32 {c : Char} (h : isBase32Char c = true) :
    asciiUpper c ∈ base32Alphabet := by
  simp only [isBase32Char, isAsciiAlpha, decide_eq_true_eq] at h
  unfold asciiUpper
  by_cases hc : 97 ≤ c.toNat ∧ c.toNat ≤ 122
  · rw [if_pos hc]
    apply mem_base32Alphabet
    have ht : (Char.ofNat (c.toNat - 32)).toNat = c.toNat - 32 :=
      toNat_ofNat_of_lt (by omega)
    rw [ht]
    omega
  · rw [if_neg hc]
    apply mem_base32Alphabet
    omega

theorem findIdx_base32_isSome {c : Char} (h : isBase32Char c = true) :
    (base32Alphabet.findIdx? (fun a => a = asciiUpper c)).isSome = true := by
  rw [List.findIdx?_isSome]
  exact List.any_eq_true.mpr ⟨asciiUpper c, asciiUpper_base32 h, by simp⟩

theorem base32Fold_isSome (cs : List Char) :
    (∀ c ∈ cs, (base32Alphabet.findIdx? (fun a => a = c)).isSome = true) →
      ∀ buffer bits bytes, ∃ out, base32Fold cs buffer bits bytes = some out := by
  induction cs with
  | nil =>
    intro _ buffer bits bytes
    exact ⟨bytes, rfl⟩
  | cons c rest ih =>
    intro h buffer bits bytes
    obtain ⟨idx, hidx⟩ :=
      Option.isSome_iff_exists.mp (h c (List.mem_cons_self c rest))
    have hrest : ∀ x ∈ rest, (base32Alphabet.findIdx? (fun a => a = x)).isSome = true :=
      fun x hx => h x (List.mem_cons_of_mem c hx)
    by_cases h8 : 8 ≤ bits + 5
    · obtain ⟨out, hout⟩ := ih hrest ((buffer * 32 + idx) % 2 ^ 32) (bits + 5 - 8)
        (bytes ++ [(buffer * 32 + idx) % 2 ^ 32 / 2 ^ (bits + 5 - 8) % 256])
      refine ⟨out, ?_⟩
      simp only [base32Fold, hidx]
      rw [if_pos h8]
      exact hout
    · obtain ⟨out, hout⟩ := ih hrest ((buffer * 32 + idx) % 2 ^ 32) (bits + 5) bytes
      refine ⟨out, ?_⟩
      simp only [base32Fold, hidx]
      rw [if_neg h8]
      exact hout

theorem base32Fold_length (cs : List Char) :
    ∀ buffer bits bytes out, bits < 8 →
      base32Fold cs buffer bits bytes = some out →
      ∃ r, r < 8 ∧ 8 * out.length + r = 8 * bytes.length + bits + 5 * cs.length := by
  induction cs with
  | nil =>
    intro buffer bits bytes out hb h
    simp only [base32Fold] at h
    injection h with h2
    subst h2
    exact ⟨bits, hb, by simp⟩
  | cons c rest ih =>
    intro buffer bits bytes out hb h
    simp only [base32Fold] at h
    cases hidx : base32Alphabet.findIdx? (fun a => a = c) with
    | none =>
      simp only [hidx] at h
      exact absurd h (by simp)
    | some idx =>
      simp only [hidx] at h
      by_cases h8 : 8 ≤ bits + 5
      · rw [if_pos h8] at h
        obtain ⟨r, hr, heq⟩ := ih _ _ _ _ (by omega) h
        refine ⟨r, hr, ?_⟩
        simp only [List.length_append, List.length_cons, List.length_nil] at heq
        simp only [List.length_cons]
        omega
      · rw [if_neg h8] at h
        obtain ⟨r, hr, heq⟩ := ih _ _ _ _ (by omega) h
        refine ⟨r, hr, ?_⟩
        simp only [List.length_cons]
        omega

theorem base32Fold_bytes_lt (cs : List Char) :
    ∀ buffer bits bytes out, (∀ b ∈ bytes, b < 256) →
      base32Fold cs buffer bits bytes = some out → ∀ b ∈ out, b < 256 := by
  induction cs with
  | nil =>
    intro buffer bits bytes out hb h
    simp only [base32Fold] at h
    injection h with h2
    subst h2
    exact hb
  | cons c rest ih =>
    intro buffer bits bytes out hb h
    simp only [base32Fold] at h
    cases hidx : base32Alphabet.findIdx? (fun a => a = c) with
    | none =>
      simp only [hidx] at h
      exact absurd h (by simp)
    | some idx =>
      simp only [hidx] at h
      by_cases h8 : 8 ≤ bits + 5
      · rw [if_pos h8] at h
        refine ih _ _ _ _ ?_ h
        intro b hbm
        rcases List.mem_append.mp hbm with hbm2 | hbm2
        · exact hb b hbm2
        · have hb2 : b = (buffer * 32 + idx) % 2 ^ 32 / 2 ^ (bits + 5 - 8) % 256 := by
            simpa using hbm2
          rw [hb2]
          exact Nat.mod_lt _ (by norm_num)
      · rw [if_neg h8] at h
        exact ih _ _ _ _ hb h

theorem base32_cleaned {v : List Char} (hall : ∀ c ∈ v, isBase32Char c = true) :
    (v.reverse.dropWhile (fun c => c = '=')).reverse = v := by
  have h1 : v.reverse.dropWhile (fun c => c = '=') = v.reverse := by
    apply dropWhile_eq_self_of_not
    intro c hc
    have hb := hall c (List.mem_reverse.mp hc)
    show decide (c = '=') = false
    rw [decide_eq_false_iff_not]
    intro heq
    subst heq
    exact absurd hb (by decide)
  rw [h1, List.reverse_reverse]

theorem base32ToHex_isSome {v : List Char} (h32 : isBase32x32 v = true) :
    (base32ToHex v).isSome = true := by
  have hprop := h32
  simp only [isBase32x32, decide_eq_true_eq] at hprop
  obtain ⟨hlen, hallb⟩ := hprop
  have hall : ∀ c ∈ v, isBase32Char c = true := List.all_eq_true.mp hallb
  have hfind : ∀ c ∈ v.map asciiUpper,
      (base32Alphabet.findIdx? (fun a => a = c)).isSome = true := by
    intro c hc
    obtain ⟨c0, hc0, hup⟩ := List.mem_map.mp hc
    rw [← hup]
    exact findIdx_base32_isSome (hall c0 hc0)
  obtain ⟨out, hout⟩ := base32Fold_isSome (v.map asciiUpper) hfind 0 0 []
  obtain ⟨r, hr, heq⟩ :=
    base32Fold_length (v.map asciiUpper) 0 0 [] out (by omega) hout
  have hne : out ≠ [] := by
    intro hnil
    rw [hnil, List.length_map, hlen] at heq
    simp at heq
    omega
  simp only [base32ToHex, base32_cleaned hall, hout]
  rw [if_neg hne]
  rfl

theorem hexDigitChar_lower (d : Nat) (h : d < 16) :
    isLowerHexChar (hexDigitChar d) = true := by
  interval_cases d <;> decide

theorem byteToHex_length (b : Nat) : (byteToHex b).length = 2 := rfl

theorem byteToHex_lower {b : Nat} (hb : b < 256) :
    ∀ c ∈ byteToHex b, isLowerHexChar c = true := by
  intro c hc
  simp only [byteToHex] at hc
  rcases List.mem_cons.mp hc with rfl | hc2
  · exact hexDigitChar_lower (b / 16) (by omega)
  · rcases List.mem_cons.mp hc2 with rfl | hc3
    · exact hexDigitChar_lower (b % 16) (by omega)
    · exact absurd hc3 (by simp)

theorem flatMap_byteToHex_length (bs : List Nat) :
    (bs.flatMap byteToHex).length = 2 * bs.length := by
  induction bs with
  | nil => rfl
  | cons b r ih =>
    simp only [List.flatMap_cons, List.length_append, byteToHex_length, ih,
      List.length_cons]
    omega

theorem mem_flatMap_byteToHex {bs : List Nat} (hb : ∀ b ∈ bs, b < 256) :
    ∀ c ∈ bs.flatMap byteToHex, isLowerHexChar c = true := by
  intro c hc
  obtain ⟨b, hbm, hcm⟩ := List.mem_flatMap.mp hc
  exact byteToHex_lower (hb b hbm) c hcm

theorem base32ToHex_shape {v out : List Char} (h32 : isBase32x32 v = true)
    (h : base32ToHex v = some out) :
    out.length = 40 ∧ ∀ c ∈ out, isLowerHexChar c = true := by
  have hprop := h32
  simp only [isBase32x32, decide_eq_true_eq] at hprop
  obtain ⟨hlen, hallb⟩ := hprop
  have hall : ∀ c ∈ v, isBase32Char c = true := List.all_eq_true.mp hallb
  simp only [base32ToHex, base32_cleaned hall] at h
  cases hfold : base32Fold (v.map asciiUpper) 0 0 [] with
  | none =>
    simp only [hfold] at h
    exact absurd h (by simp)
  | some bytes =>
    simp only [hfold] at h
    by_cases hnil : bytes = []
    · rw [if_pos hnil] at h
      exact absurd h (by simp)
    · rw [if_neg hnil] at h
      injection h with h2
      subst h2
      obtain ⟨r, hr, heq⟩ :=
        base32Fold_length (v.map asciiUpper) 0 0 [] bytes (by omega) hfold
      rw [List.length_map, hlen] at heq
      simp only [List.length_nil] at heq
      have hb20 : bytes.length = 20 := by omega
      have hblt : ∀ b ∈ bytes, b < 256 :=
        base32Fold_bytes_lt (v.map asciiUpper) 0 0 [] bytes (by simp) hfold
      constructor
      · rw [flatMap_byteToHex_length, hb20]
      · exact mem_flatMap_byteToHex hblt

theorem asciiLower_hexCI {c : Char} (h : isHexCharCI c = true) :
    isLowerHexChar (asciiLower c) = true := by
  simp only [isHexCharCI, decide_eq_true_eq] at h
  unfold asciiLower isLowerHexChar
  by_cases hc : 65 ≤ c.toNat ∧ c.toNat ≤ 90
  · rw [if_pos hc, decide_eq_true_eq]
    have ht : (Char.ofNat (c.toNat + 32)).toNat = c.toNat + 32 :=
      toNat_ofNat_of_lt (by omega)
    rw [ht]
    omega
  · rw [if_neg hc, decide_eq_true_eq]
    omega

theorem normalizeInfoHash_isSome (v : List Char) :
    (normalizeInfoHash v).isSome = (isHex40 v || isBase32x32 v) := by
  unfold normalizeInfoHash
  by_cases h40 : isHex40 v = true
  · rw [if_pos h40, h40, Bool.true_or]
    rfl
  · have h40f : isHex40 v = false := by
      cases hx : isHex40 v
      · rfl
      · exact absurd hx h40
    rw [if_neg h40, h40f, Bool.false_or]
    by_cases h32 : isBase32x32 v = true
    · rw [if_pos h32, h32]
      exact base32ToHex_isSome h32
    · have h32f : isBase32x32 v = false := by
        cases hx : isBase32x32 v
        · rfl
        · exact absurd hx h32
      rw [if_neg h32, h32f]
      rfl

theorem normalizeInfoHash_shape {v hsh : List Char}
    (heq : normalizeInfoHash v = some hsh) :
    hsh.length = 40 ∧ ∀ c ∈ hsh, isLowerHexChar c = true := by
  unfold normalizeInfoHash at heq
  by_cases h40 : isHex40 v = true
  · rw [if_pos h40] at heq
    injection heq with h2
    subst h2
    have hprop := h40
    simp only [isHex40, decide_eq_true_eq] at hprop
    obtain ⟨hl, hallhex⟩ := hprop
    constructor
    · rw [List.length_map]
      exact hl
    · intro c hc
      obtain ⟨c0, hc0, hlow⟩ := List.mem_map.mp hc
      rw [← hlow]
      exact asciiLower_hexCI (List.all_eq_true.mp hallhex c0 hc0)
  · rw [if_neg h40] at heq
    by_cases h32 : isBase32x32 v = true
    · rw [if_pos h32] at heq
      exact base32ToHex_shape h32 heq
    · rw [if_neg h32] at heq
      exact absurd heq (by simp)

theorem dedupFirstAux_nodup {α : Type} [DecidableEq α] (l : List α) :
    ∀ seen : List α,
      (dedupFirstAux seen l).Nodup ∧ ∀ a ∈ dedupFirstAux seen l, a ∉ seen := by
  induction l with
  | nil =>
    intro seen
    exact ⟨List.nodup_nil, by simp [dedupFirstAux]⟩
  | cons a l ih =>
    intro seen
    by_cases ha : a ∈ seen
    · have hstep : dedupFirstAux seen (a :: l) = dedupFirstAux seen l := by
        simp [dedupFirstAux, ha]
      rw [hstep]
      exact ih seen
    · have hstep : dedupFirstAux seen (a :: l) = a :: dedupFirstAux (a :: seen) l := by
        simp [dedupFirstAux, ha]
      rw [hstep]
      obtain ⟨hnd, hni⟩ := ih (a :: seen)
      refine ⟨List.nodup_cons.mpr ⟨fun hmem => ?_, hnd⟩, ?_⟩
      · exact (hni a hmem) (List.mem_cons_self a seen)
      · intro x hx
        rcases List.mem_cons.mp hx with rfl | hx2
        · exact ha
        · intro hxs
          exact (hni x hx2) (List.mem_cons_of_mem a hxs)

theorem dedupFirst_nodup {α : Type} [DecidableEq α] (l : List α) :
    (dedupFirst l).Nodup :=
  (dedupFirstAux_nodup l []).1

theorem dedupFirstAux_subset {α : Type} [DecidableEq α] (l : List α) :
    ∀ seen : List α, ∀ a ∈ dedupFirstAux seen l, a ∈ l := by
  induction l with
  | nil =>
    intro seen a ha
    simp [dedupFirstAux] at ha
  | cons b l ih =>
    intro seen a ha
    by_cases hb : b ∈ seen
    · have hstep : dedupFirstAux seen (b :: l) = dedupFirstAux seen l := by
        simp [dedupFirstAux, hb]
      rw [hstep] at ha
      exact List.mem_cons_of_mem b (ih seen a ha)
    · have hstep : dedupFirstAux seen (b :: l) = b :: dedupFirstAux (b :: seen) l := by
        simp [dedupFirstAux, hb]
      rw [hstep] at ha
      rcases List.mem_cons.mp ha with rfl | ha2
      · exact List.mem_cons_self a l
      · exact List.mem_cons_of_mem b (ih (b :: seen) a ha2)

theorem prefixTracker_take (t : List Char) :
    (prefixTracker t).take 8 = "tracker:".toList := by
  unfold prefixTracker
  by_cases h : t.take 8 = "tracker:".toList
  · rw [if_pos h]
    exact h
  · rw [if_neg h]
    have hlen : ("tracker:".toList : List Char).length = 8 := by decide
    rw [← hlen, List.take_left]

/-- Counterexample to claim C4 as stated: the claim accepts a magnet URI
as soon as SOME `urn:btih:`-prefixed `xt` parameter carries a valid
remainder, but `parseMagnet` validates only the FIRST such `xt`.  Here the
first `urn:btih:` xt has the invalid remainder `0` while the second is 40
hex chars, so the code returns nil although the claim accepts. -/
theorem c4_counterexample :
    parseMagnet
        "magnet:?xt=urn:btih:0&xt=urn:btih:aaaaaaaaaaaaaaaaaaaaaaaaaaaaaaaaaaaaaaaa"
      = none ∧
      specAcceptsMagnetC4
          "magnet:?xt=urn:btih:0&xt=urn:btih:aaaaaaaaaaaaaaaaaaaaaaaaaaaaaaaaaaaaaaaa"
        = true := by
  constructor
  · decide
  · decide

/-- Claim C4 (amended): `parseMagnet` returns a `MagnetInfo` exactly when
the URI parses as a URL with scheme `magnet:` and the FIRST `xt` parameter
whose case-insensitive prefix is `urn:btih:` has a remainder that is
either 40 hex chars or 32 RFC 4648 base32 chars (a valid later `xt` does
not rescue an invalid first one); on success the info hash is that
remainder lowercased as-is in the hex case and base32-decoded to 40-char
lowercase hex otherwise, and the sources are the non-empty `tr` values,
`tracker:`-prefixed unless already so, deduplicated keeping first
occurrences. -/
theorem c4_parse_magnet (uri : String) :
    ((parseMagnet uri).isSome = specAcceptsMagnetAmended uri) ∧
      ∀ mi, parseMagnet uri = some mi →
        ∃ scheme query,
          jsURLMagnetView uri = some (scheme, query) ∧
            scheme = "magnet".toList ∧
            mi.sources = specMagnetSources query ∧
            ∃ xt,
              (getAllParams query ("xt".toList)).find?
                  (fun v => (v.map asciiLower).take 9 = "urn:btih:".toList)
                = some xt ∧
                ((isHex40 (xt.drop 9) = true ∧
                    mi.infoHash = (xt.drop 9).map asciiLower) ∨
                  (isBase32x32 (xt.drop 9) = true ∧
                    base32ToHex (xt.drop 9) = some mi.infoHash)) := by
  rcases hview : jsURLMagnetView uri with _ | ⟨scheme, query⟩
  · constructor
    · simp [parseMagnet, specAcceptsMagnetAmended, hview]
    · intro mi hmi
      simp only [parseMagnet, hview] at hmi
      exact absurd hmi (by simp)
  · by_cases hs : scheme = "magnet".toList
    · subst hs
      constructor
      · rcases hfind : (getAllParams query ("xt".toList)).find?
            (fun v => (v.map asciiLower).take 9 = "urn:btih:".toList) with _ | xt
        · simp only [parseMagnet, specAcceptsMagnetAmended, hview, hfind]
          rw [if_neg (fun hne => hne rfl)]
          simp
        · simp only [parseMagnet, specAcceptsMagnetAmended, hview, hfind]
          rw [if_neg (fun hne => hne rfl)]
          rw [decide_or_bool, ← normalizeInfoHash_isSome]
          cases normalizeInfoHash (xt.drop 9) <;> simp
      · intro mi hmi
        rcases hfind : (getAllParams query ("xt".toList)).find?
            (fun v => (v.map asciiLower).take 9 = "urn:btih:".toList) with _ | xt
        · simp only [parseMagnet, hview, hfind] at hmi
          rw [if_neg (fun hne => hne rfl)] at hmi
          exact absurd hmi (by simp)
        · simp only [parseMagnet, hview, hfind] at hmi
          rw [if_neg (fun hne => hne rfl)] at hmi
          rcases hnorm : normalizeInfoHash (xt.drop 9) with _ | ihash
          · simp only [hnorm] at hmi
            exact absurd hmi (by simp)
          · simp only [hnorm] at hmi
            injection hmi with h2
            subst h2
            refine ⟨"magnet".toList, query, rfl, rfl, rfl, xt, hfind, ?_⟩
            unfold normalizeInfoHash at hnorm
            by_cases h40 : isHex40 (xt.drop 9) = true
            · rw [if_pos h40] at hnorm
              injection hnorm with h3
              exact Or.inl ⟨h40, h3.symm⟩
            · rw [if_neg h40] at hnorm
              by_cases h32 : isBase32x32 (xt.drop 9) = true
              · rw [if_pos h32] at hnorm
                exact Or.inr ⟨h32, hnorm⟩
              · rw [if_neg h32] at hnorm
                exact absurd hnorm (by simp)
    · constructor
      · simp only [parseMagnet, specAcceptsMagnetAmended, hview]
        rw [if_pos hs]
        have hds : decide (scheme = "magnet".toList) = false :=
          decide_eq_false_iff_not.mpr hs
        rw [hds, Bool.false_and]
        rfl
      · intro mi hmi
        simp only [parseMagnet, hview] at hmi
        rw [if_pos hs] at hmi
        exact absurd hmi (by simp)

/-- Witness for `c4_parse_magnet` at a concrete accepted magnet URI with
an uppercase 40-hex info hash and one tracker. -/
theorem c4_parse_magnet_witness :
    ((parseMagnet
          "magnet:?xt=urn:btih:AAAAAAAAAAAAAAAAAAAAAAAAAAAAAAAAAAAAAAAA&tr=x").isSome
        = specAcceptsMagnetAmended
            "magnet:?xt=urn:btih:AAAAAAAAAAAAAAAAAAAAAAAAAAAAAAAAAAAAAAAA&tr=x") ∧
      (∃ scheme query,
        jsURLMagnetView
            "magnet:?xt=urn:btih:AAAAAAAAAAAAAAAAAAAAAAAAAAAAAAAAAAAAAAAA&tr=x"
          = some (scheme, query) ∧
          scheme = "magnet".toList ∧
          (MagnetInfo.mk "aaaaaaaaaaaaaaaaaaaaaaaaaaaaaaaaaaaaaaaa".toList
              ["tracker:x".toList]).sources = specMagnetSources query ∧
          ∃ xt,
            (getAllParams query ("xt".toList)).find?
                (fun v => (v.map asciiLower).take 9 = "urn:btih:".toList)
              = some xt ∧
              ((isHex40 (xt.drop 9) = true ∧
                  (MagnetInfo.mk "aaaaaaaaaaaaaaaaaaaaaaaaaaaaaaaaaaaaaaaa".toList
                      ["tracker:x".toList]).infoHash = (xt.drop 9).map asciiLower) ∨
                (isBase32x32 (xt.drop 9) = true ∧
                  base32ToHex (xt.drop 9)
                    = some (MagnetInfo.mk
                          "aaaaaaaaaaaaaaaaaaaaaaaaaaaaaaaaaaaaaaaa".toList
                          ["tracker:x".toList]).infoHash))) :=
  ⟨(c4_parse_magnet
      "magnet:?xt=urn:btih:AAAAAAAAAAAAAAAAAAAAAAAAAAAAAAAAAAAAAAAA&tr=x").1,
    (c4_parse_magnet
        "magnet:?xt=urn:btih:AAAAAAAAAAAAAAAAAAAAAAAAAAAAAAAAAAAAAAAA&tr=x").2
      ⟨"aaaaaaaaaaaaaaaaaaaaaaaaaaaaaaaaaaaaaaaa".toList, ["tracker:x".toList]⟩
      (by decide)⟩

/-- Claim C9: `parseMagnet` is shape-safe: every returned `MagnetInfo` has
an `infoHash` of exactly 40 lowercase hex characters (also when produced
by base32 decoding) and pairwise distinct `sources` each beginning with
`tracker:`. -/
theorem c9_parse_magnet_shape (s : String) (mi : MagnetInfo)
    (h : parseMagnet s = some mi) :
    mi.infoHash.length = 40 ∧ (∀ c ∈ mi.infoHash, isLowerHexChar c = true) ∧
      mi.sources.Nodup ∧ ∀ src ∈ mi.sources, src.take 8 = "tracker:".toList := by
  rcases hview : jsURLMagnetView s with _ | ⟨scheme, query⟩
  · simp only [parseMagnet, hview] at h
    exact absurd h (by simp)
  · simp only [parseMagnet, hview] at h
    by_cases hs : scheme ≠ "magnet".toList
    · rw [if_pos hs] at h
      exact absurd h (by simp)
    · rw [if_neg hs] at h
      rcases hfind : (getAllParams query ("xt".toList)).find?
          (fun v => (v.map asciiLower).take 9 = "urn:btih:".toList) with _ | xt
      · simp only [hfind] at h
        exact absurd h (by simp)
      · simp only [hfind] at h
        rcases hnorm : normalizeInfoHash (xt.drop 9) with _ | ihash
        · simp only [hnorm] at h
          exact absurd h (by simp)
        · simp only [hnorm] at h
          injection h with h2
          subst h2
          obtain ⟨hlen, hchars⟩ := normalizeInfoHash_shape hnorm
          refine ⟨hlen, hchars, dedupFirst_nodup _, ?_⟩
          intro src hsrc
          obtain ⟨t, _, hpt⟩ :=
            List.mem_map.mp (dedupFirstAux_subset _ [] src hsrc)
          rw [← hpt]
          exact prefixTracker_take t

/-- Witness for `c9_parse_magnet_shape` at a concrete magnet URI with a
base32 info hash and duplicate trackers. -/
theorem c9_parse_magnet_shape_witness :
    (MagnetInfo.mk "6162636465666768696a6b6c6d6e6f7071727374".toList
          ["tracker:x".toList, "tracker:y".toList]).infoHash.length = 40 ∧
      (∀ c ∈ (MagnetInfo.mk "6162636465666768696a6b6c6d6e6f7071727374".toList
            ["tracker:x".toList, "tracker:y".toList]).infoHash,
        isLowerHexChar c = true) ∧
      (MagnetInfo.mk "6162636465666768696a6b6c6d6e6f7071727374".toList
          ["tracker:x".toList, "tracker:y".toList]).sources.Nodup ∧
      ∀ src ∈ (MagnetInfo.mk "6162636465666768696a6b6c6d6e6f7071727374".toList
            ["tracker:x".toList, "tracker:y".toList]).sources,
        src.take 8 = "tracker:".toList :=
  c9_parse_magnet_shape
    "magnet:?xt=urn:btih:MFRGGZDFMZTWQ2LKNNWG23TPOBYXE43U&tr=x&tr=x&tr=tracker:y"
    ⟨"6162636465666768696a6b6c6d6e6f7071727374".toList,
      ["tracker:x".toList, "tracker:y".toList]⟩
    (by decide)

/-! ### Lemmas for the aggregator (claims C1, C2, C7, C10) -/

theorem dedupFirstAux_congr {α : Type} [DecidableEq α] (l : List α) :
    ∀ s1 s2 : List α, (∀ x : α, x ∈ s1 ↔ x ∈ s2) →
      dedupFirstAux s1 l = dedupFirstAux s2 l := by
  induction l with
  | nil => intro s1 s2 _; rfl
  | cons a l ih =>
    intro s1 s2 hs
    by_cases ha : a ∈ s1
    · rw [show dedupFirstAux s1 (a :: l) = dedupFirstAux s1 l from by
        simp [dedupFirstAux, ha]]
      rw [show dedupFirstAux s2 (a :: l) = dedupFirstAux s2 l from by
        simp [dedupFirstAux, (hs a).mp ha]]
      exact ih s1 s2 hs
    · have ha2 : a ∉ s2 := fun h => ha ((hs a).mpr h)
      rw [show dedupFirstAux s1 (a :: l) = a :: dedupFirstAux (a :: s1) l from by
        simp [dedupFirstAux, ha]]
      rw [show dedupFirstAux s2 (a :: l) = a :: dedupFirstAux (a :: s2) l from by
        simp [dedupFirstAux, ha2]]
      rw [ih (a :: s1) (a :: s2) (fun x => by
        rw [List.mem_cons, List.mem_cons, hs x])]

theorem mem_dedupFirstAux {α : Type} [DecidableEq α] (l : List α) :
    ∀ (seen : List α) (x : α), x ∈ dedupFirstAux seen l ↔ x ∈ l ∧ x ∉ seen := by
  induction l with
  | nil => intro seen x; simp [dedupFirstAux]
  | cons a l ih =>
    intro seen x
    by_cases ha : a ∈ seen
    · rw [show dedupFirstAux seen (a :: l) = dedupFirstAux seen l from by
        simp [dedupFirstAux, ha]]
      rw [ih seen x, List.mem_cons]
      constructor
      · rintro ⟨h1, h2⟩
        exact ⟨Or.inr h1, h2⟩
      · rintro ⟨h1 | h1, h2⟩
        · subst h1
          exact absurd ha h2
        · exact ⟨h1, h2⟩
    · rw [show dedupFirstAux seen (a :: l) = a :: dedupFirstAux (a :: seen) l from by
        simp [dedupFirstAux, ha]]
      rw [List.mem_cons, ih (a :: seen) x, List.mem_cons, List.mem_cons]
      constructor
      · rintro (rfl | ⟨h1, h2⟩)
        · exact ⟨Or.inl rfl, ha⟩
        · exact ⟨Or.inr h1, fun hx => h2 (Or.inr hx)⟩
      · rintro ⟨rfl | h1, h2⟩
        · exact Or.inl rfl
        · by_cases hxa : x = a
          · exact Or.inl hxa
          · exact Or.inr ⟨h1, fun h => h.elim hxa h2⟩

theorem dedupFirstAux_append {α : Type} [DecidableEq α] (a : List α) :
    ∀ b seen : List α,
      dedupFirstAux seen (a ++ b)
        = dedupFirstAux seen a ++ dedupFirstAux (a ++ seen) b := by
  induction a with
  | nil => intro b seen; rfl
  | cons x a ih =>
    intro b seen
    rw [show (x :: a) ++ b = x :: (a ++ b) from rfl,
      show (x :: a) ++ seen = x :: (a ++ seen) from rfl]
    by_cases hx : x ∈ seen
    · rw [show dedupFirstAux seen (x :: (a ++ b)) = dedupFirstAux seen (a ++ b) from by
        simp [dedupFirstAux, hx]]
      rw [show dedupFirstAux seen (x :: a) = dedupFirstAux seen a from by
        simp [dedupFirstAux, hx]]
      rw [ih b seen]
      rw [dedupFirstAux_congr b (a ++ seen) (x :: (a ++ seen)) (by
        intro y
        rw [List.mem_cons]
        constructor
        · exact fun h => Or.inr h
        · rintro (rfl | h)
          · exact List.mem_append.mpr (Or.inr hx)
          · exact h)]
    · rw [show dedupFirstAux seen (x :: (a ++ b))
          = x :: dedupFirstAux (x :: seen) (a ++ b) from by
        simp [dedupFirstAux, hx]]
      rw [show dedupFirstAux seen (x :: a) = x :: dedupFirstAux (x :: seen) a from by
        simp [dedupFirstAux, hx]]
      rw [ih b (x :: seen)]
      rw [dedupFirstAux_congr b (a ++ (x :: seen)) (x :: (a ++ seen)) (by
        intro y
        rw [List.mem_cons, List.mem_append, List.mem_append, List.mem_cons]
        tauto)]
      rfl

theorem dedupFirstAux_eq_self {α : Type} [DecidableEq α] (l : List α) :
    ∀ seen : List α, l.Nodup → (∀ x ∈ l, x ∉ seen) → dedupFirstAux seen l = l := by
  induction l with
  | nil => intro seen _ _; rfl
  | cons a l ih =>
    intro seen hnd hdisj
    have ha : a ∉ seen := hdisj a (List.mem_cons_self a l)
    rw [show dedupFirstAux seen (a :: l) = a :: dedupFirstAux (a :: seen) l from by
      simp [dedupFirstAux, ha]]
    rw [ih (a :: seen) (List.nodup_cons.mp hnd).2 (by
      intro x hx
      rw [List.mem_cons]
      rintro (rfl | hxs)
      · exact (List.nodup_cons.mp hnd).1 hx
      · exact hdisj x (List.mem_cons_of_mem a hx) hxs)]

theorem dedupFirst_absorb {α : Type} [DecidableEq α] (a b : List α) :
    dedupFirst (dedupFirst a ++ b) = dedupFirst (a ++ b) := by
  unfold dedupFirst
  rw [dedupFirstAux_append (dedupFirstAux [] a) b [], dedupFirstAux_append a b []]
  rw [dedupFirstAux_eq_self (dedupFirstAux [] a) [] (dedupFirst_nodup a) (by simp)]
  rw [dedupFirstAux_congr b (dedupFirstAux [] a ++ []) (a ++ []) (by
    intro y
    rw [List.append_nil, List.append_nil]
    rw [mem_dedupFirstAux a [] y]
    simp)]

theorem dedupFirst_eq_nil_iff {α : Type} [DecidableEq α] (l : List α) :
    dedupFirst l = [] ↔ l = [] := by
  cases l with
  | nil => simp [dedupFirst, dedupFirstAux]
  | cons a l =>
    simp only [dedupFirst]
    rw [show dedupFirstAux [] (a :: l) = a :: dedupFirstAux [a] l from by
      simp [dedupFirstAux]]
    simp

theorem foldl_mergeSourcesJS (ds : List Stream) :
    ∀ init : Option (List (List Char)),
      ds.foldl (fun cur d => mergeSourcesJS cur d.sources) init
        = if ds ≠ [] ∧
              dedupFirst (init.getD []
                ++ ds.flatMap (fun d => d.sources.getD [])) ≠ []
          then some (dedupFirst (init.getD []
            ++ ds.flatMap (fun d => d.sources.getD [])))
          else init := by
  induction ds with
  | nil =>
    intro init
    rw [if_neg (by simp)]
    rfl
  | cons d ds ih =>
    intro init
    rw [List.foldl_cons, ih (mergeSourcesJS init d.sources),
      List.flatMap_cons, ← List.append_assoc]
    by_cases hm : dedupFirst (init.getD [] ++ d.sources.getD []) = []
    · have hmerge : mergeSourcesJS init d.sources = init := by
        unfold mergeSourcesJS
        by_cases hg : init ≠ none ∨ d.sources ≠ none
        · rw [if_pos hg, if_neg (by simpa using hm)]
        · rw [if_neg hg]
      rw [hmerge]
      have h0 : init.getD [] ++ d.sources.getD [] = [] :=
        (dedupFirst_eq_nil_iff _).mp hm
      have hI : init.getD [] = [] := (List.append_eq_nil.mp h0).1
      rw [h0, hI, List.nil_append]
      by_cases hds : ds = []
      · subst hds
        simp [dedupFirst, dedupFirstAux]
      · exact if_congr (by simp [hds]) rfl rfl
    · have hg : init ≠ none ∨ d.sources ≠ none := by
        by_contra hng
        push_neg at hng
        obtain ⟨h1, h2⟩ := hng
        rw [h1, h2] at hm
        exact hm rfl
      have hmerge : mergeSourcesJS init d.sources
          = some (dedupFirst (init.getD [] ++ d.sources.getD [])) := by
        unfold mergeSourcesJS
        rw [if_pos hg, if_pos hm]
      rw [hmerge]
      simp only [Option.getD_some]
      rw [dedupFirst_absorb]
      have hne2 : dedupFirst ((init.getD [] ++ d.sources.getD [])
            ++ ds.flatMap (fun d => d.sources.getD [])) ≠ [] := by
        intro h0
        rw [dedupFirst_eq_nil_iff] at h0
        exact hm (by rw [(List.append_eq_nil.mp h0).1]; rfl)
      by_cases hds : ds = []
      · subst hds
        rw [if_neg (by simp), if_pos ⟨by simp, hne2⟩]
        simp
      · rw [if_pos ⟨hds, hne2⟩, if_pos ⟨by simp, hne2⟩]

theorem streamKey_set_sources (t : Stream) (x : Option (List (List Char))) :
    streamKey { t with sources := x } = streamKey t := rfl

theorem sources_update_update (t : Stream) (x y : Option (List (List Char))) :
    ({ ({ t with sources := x } : Stream) with sources := y } : Stream)
      = { t with sources := y } := rfl

theorem streamKey_stripStreamExtras (s : Stream) :
    streamKey (stripStreamExtras s) = streamKey s := rfl

theorem streamKey_applyBingeGroup (s : Stream) (parsed : ParsedStremioId)
    (tp : List Char) :
    streamKey (applyBingeGroup s parsed tp) = streamKey s := by
  unfold applyBingeGroup
  by_cases h1 : tp ≠ "series".toList ∨ ¬jsTruthyNatOpt parsed.season = true ∨
      ¬jsTruthyNatOpt parsed.episode = true
  · rw [if_pos h1]
  · rw [if_neg h1]
    by_cases h2 : bingeGroupTruthy s.behaviorHints = true
    · rw [if_pos h2]
    · rw [if_neg h2]
      rfl

theorem mergeTail_eq_spec (s : Stream) (rest : List Stream) :
    mergeTail s rest
      = { s with sources :=
          specGroupSources s (rest.filter (fun d => streamKey d = streamKey s)) } := by
  simp only [mergeTail, specGroupSources, foldl_mergeSourcesJS]

theorem specDedupeAux_congr (l : List Stream) :
    ∀ s1 s2 : List (List Char), (∀ x : List Char, x ∈ s1 ↔ x ∈ s2) →
      specDedupeAux s1 l = specDedupeAux s2 l := by
  induction l with
  | nil => intro s1 s2 _; rfl
  | cons s l ih =>
    intro s1 s2 hs
    by_cases h1 : streamKey s = [] ∨ streamKey s ∈ s1
    · have h2 : streamKey s = [] ∨ streamKey s ∈ s2 := by
        rcases h1 with h | h
        · exact Or.inl h
        · exact Or.inr ((hs _).mp h)
      have e1 : specDedupeAux s1 (s :: l) = specDedupeAux s1 l := by
        simp only [specDedupeAux]
        rw [if_pos h1]
      have e2 : specDedupeAux s2 (s :: l) = specDedupeAux s2 l := by
        simp only [specDedupeAux]
        rw [if_pos h2]
      rw [e1, e2]
      exact ih s1 s2 hs
    · have h2 : ¬(streamKey s = [] ∨ streamKey s ∈ s2) := by
        intro h
        rcases h with h | h
        · exact h1 (Or.inl h)
        · exact h1 (Or.inr ((hs _).mpr h))
      have e1 : specDedupeAux s1 (s :: l)
          = { s with sources := specGroupSources s (l.filter (fun d => streamKey d = streamKey s)) } :: specDedupeAux (streamKey s :: s1) l := by
        simp only [specDedupeAux]
        rw [if_neg h1]
      have e2 : specDedupeAux s2 (s :: l)
          = { s with sources := specGroupSources s (l.filter (fun d => streamKey d = streamKey s)) } :: specDedupeAux (streamKey s :: s2) l := by
        simp only [specDedupeAux]
        rw [if_neg h2]
      rw [e1, e2]
      congr 1
      exact ih _ _ (fun x => by rw [List.mem_cons, List.mem_cons, hs x])

theorem specDedupeAux_keys (l : List Stream) :
    ∀ seen : List (List Char),
      ((specDedupeAux seen l).map streamKey).Nodup ∧
        ∀ k ∈ (specDedupeAux seen l).map streamKey, k ∉ seen ∧ k ≠ [] := by
  induction l with
  | nil =>
    intro seen
    exact ⟨List.nodup_nil, by simp [specDedupeAux]⟩
  | cons s l ih =>
    intro seen
    by_cases h1 : streamKey s = [] ∨ streamKey s ∈ seen
    · have e1 : specDedupeAux seen (s :: l) = specDedupeAux seen l := by
        simp only [specDedupeAux]
        rw [if_pos h1]
      rw [e1]
      exact ih seen
    · have e1 : specDedupeAux seen (s :: l)
          = { s with sources := specGroupSources s (l.filter (fun d => streamKey d = streamKey s)) } :: specDedupeAux (streamKey s :: seen) l := by
        simp only [specDedupeAux]
        rw [if_neg h1]
      rw [e1]
      obtain ⟨hnd, hmem⟩ := ih (streamKey s :: seen)
      rw [List.map_cons, streamKey_set_sources]
      push_neg at h1
      obtain ⟨hk0, hkseen⟩ := h1
      constructor
      · rw [List.nodup_cons]
        exact ⟨fun hin => (hmem _ hin).1 (List.mem_cons_self _ _), hnd⟩
      · intro k hk
        rw [List.mem_cons] at hk
        rcases hk with rfl | hk
        · exact ⟨hkseen, hk0⟩
        · obtain ⟨hns, hne⟩ := hmem k hk
          exact ⟨fun hsn => hns (List.mem_cons_of_mem _ hsn), hne⟩

theorem dedupeAux_spec (rest : List Stream) :
    ∀ acc : List Stream, (∀ t ∈ acc, streamKey t ≠ []) →
      dedupeAux acc rest
        = acc.map (fun t => mergeTail t rest)
          ++ specDedupeAux (acc.map streamKey) rest := by
  induction rest with
  | nil =>
    intro acc hacc
    rw [show dedupeAux acc [] = acc from rfl,
      show specDedupeAux (acc.map streamKey) [] = [] from rfl, List.append_nil]
    exact (map_eq_self_of (fun t _ => rfl)).symm
  | cons s rest ih =>
    intro acc hacc
    by_cases hk : streamKey s = []
    · have hcode : dedupeAux acc (s :: rest) = dedupeAux acc rest := by
        simp only [dedupeAux]
        rw [if_pos hk]
      have hspec : specDedupeAux (acc.map streamKey) (s :: rest)
          = specDedupeAux (acc.map streamKey) rest := by
        simp only [specDedupeAux]
        rw [if_pos (Or.inl hk)]
      rw [hcode, hspec, ih acc hacc]
      congr 1
      apply List.map_congr_left
      intro t ht
      have hne : streamKey s ≠ streamKey t := by
        rw [hk]
        exact fun h => hacc t ht h.symm
      simp only [mergeTail]
      rw [List.filter_cons,
        if_neg (by simp only [decide_eq_true_eq]; exact hne)]
    · by_cases hdup : streamKey s ∈ acc.map streamKey
      · have hany : acc.any (fun t => streamKey t = streamKey s) = true := by
          rw [List.any_eq_true]
          obtain ⟨t, ht, hkey⟩ := List.mem_map.mp hdup
          exact ⟨t, ht, by simp [hkey]⟩
        have hcode : dedupeAux acc (s :: rest)
            = dedupeAux (mergeIntoAcc acc (streamKey s) s) rest := by
          simp only [dedupeAux]
          rw [if_neg hk, if_pos hany]
        have hacc2 : ∀ t ∈ mergeIntoAcc acc (streamKey s) s, streamKey t ≠ [] := by
          intro t ht
          obtain ⟨u, hu, hut⟩ := List.mem_map.mp ht
          by_cases hus : streamKey u = streamKey s
          · rw [← hut, if_pos hus, streamKey_set_sources]
            exact hacc u hu
          · rw [← hut, if_neg hus]
            exact hacc u hu
        have hkeys : (mergeIntoAcc acc (streamKey s) s).map streamKey
            = acc.map streamKey := by
          unfold mergeIntoAcc
          rw [List.map_map]
          apply List.map_congr_left
          intro t _
          show streamKey (if streamKey t = streamKey s then
            { t with sources := mergeSourcesJS t.sources s.sources } else t)
            = streamKey t
          by_cases hts : streamKey t = streamKey s
          · rw [if_pos hts, streamKey_set_sources]
          · rw [if_neg hts]
        have hspec : specDedupeAux (acc.map streamKey) (s :: rest)
            = specDedupeAux (acc.map streamKey) rest := by
          simp only [specDedupeAux]
          rw [if_pos (Or.inr hdup)]
        rw [hcode, ih (mergeIntoAcc acc (streamKey s) s) hacc2, hkeys, hspec]
        congr 1
        unfold mergeIntoAcc
        rw [List.map_map]
        apply List.map_congr_left
        intro t _
        show mergeTail (if streamKey t = streamKey s then
            { t with sources := mergeSourcesJS t.sources s.sources } else t) rest
          = mergeTail t (s :: rest)
        by_cases hts : streamKey t = streamKey s
        · rw [if_pos hts]
          simp only [mergeTail, streamKey_set_sources, sources_update_update]
          rw [List.filter_cons, if_pos (by rw [hts]; simp), List.foldl_cons]
        · rw [if_neg hts]
          simp only [mergeTail]
          rw [List.filter_cons,
            if_neg (by simp only [decide_eq_true_eq]; exact fun h => hts h.symm)]
      · have hany : acc.any (fun t => streamKey t = streamKey s) = false := by
          rw [List.any_eq_false]
          intro t ht hpt
          rw [decide_eq_true_eq] at hpt
          exact hdup (List.mem_map.mpr ⟨t, ht, hpt⟩)
        have hcode : dedupeAux acc (s :: rest) = dedupeAux (acc ++ [s]) rest := by
          simp only [dedupeAux]
          rw [if_neg hk, if_neg (by simp [hany])]
        have hacc2 : ∀ t ∈ acc ++ [s], streamKey t ≠ [] := by
          intro t ht
          rcases List.mem_append.mp ht with h1 | h1
          · exact hacc t h1
          · rw [List.mem_singleton] at h1
            subst h1
            exact hk
        have hspec : specDedupeAux (acc.map streamKey) (s :: rest)
            = mergeTail s rest
              :: specDedupeAux (streamKey s :: acc.map streamKey) rest := by
          simp only [specDedupeAux]
          rw [if_neg (by
            intro h
            rcases h with h | h
            · exact hk h
            · exact hdup h)]
          rw [← mergeTail_eq_spec]
        rw [hcode, ih (acc ++ [s]) hacc2, List.map_append, List.map_append,
          hspec]
        simp only [List.map_cons, List.map_nil]
        rw [List.append_assoc, List.singleton_append]
        congr 1
        · apply List.map_congr_left
          intro t ht
          have hne : streamKey s ≠ streamKey t := by
            intro h
            exact hdup (by rw [h]; exact List.mem_map_of_mem streamKey ht)
          simp only [mergeTail]
          rw [List.filter_cons,
            if_neg (by simp only [decide_eq_true_eq]; exact hne)]
        · congr 1
          apply specDedupeAux_congr
          intro x
          rw [List.mem_append, List.mem_singleton, List.mem_cons]
          tauto

theorem dedupeStreams_key_ne_nil {t : Stream} {l : List Stream}
    (ht : t ∈ dedupeStreams l) : streamKey t ≠ [] := by
  have hmain : dedupeStreams l = specDedupe l :=
    dedupeAux_spec l [] (by intro x hx; simp at hx)
  rw [hmain] at ht
  exact ((specDedupeAux_keys l []).2 (streamKey t)
    (List.mem_map_of_mem streamKey ht)).2

theorem mem_insertSeeders {x s : Stream} (m : List Stream) :
    x ∈ insertSeeders s m ↔ x = s ∨ x ∈ m := by
  induction m with
  | nil => simp [insertSeeders]
  | cons t rest ih =>
    simp only [insertSeeders]
    by_cases h : seedersVal s < seedersVal t
    · rw [if_pos h, List.mem_cons, ih, List.mem_cons]
      tauto
    · rw [if_neg h, List.mem_cons, List.mem_cons]

theorem sortStreams_mem {x : Stream} {l : List Stream}
    (h : x ∈ sortStreams l) : x ∈ l := by
  induction l with
  | nil => exact absurd h (by simp [sortStreams])
  | cons s rest ih =>
    have h2 : x ∈ insertSeeders s (sortStreams rest) := h
    rw [mem_insertSeeders] at h2
    rcases h2 with rfl | h2
    · exact List.mem_cons_self _ _
    · exact List.mem_cons_of_mem _ (ih h2)

theorem insertSeeders_pairwise {s : Stream} {m : List Stream}
    (hm : m.Pairwise (fun a b => seedersVal b ≤ seedersVal a)) :
    (insertSeeders s m).Pairwise (fun a b => seedersVal b ≤ seedersVal a) := by
  induction m with
  | nil => simp [insertSeeders]
  | cons t rest ih =>
    rw [List.pairwise_cons] at hm
    obtain ⟨ht, hrest⟩ := hm
    simp only [insertSeeders]
    by_cases h : seedersVal s < seedersVal t
    · rw [if_pos h, List.pairwise_cons]
      constructor
      · intro x hx
        rw [mem_insertSeeders] at hx
        rcases hx with rfl | hx
        · exact le_of_lt h
        · exact ht x hx
      · exact ih hrest
    · rw [if_neg h, List.pairwise_cons]
      constructor
      · intro x hx
        rw [List.mem_cons] at hx
        rcases hx with rfl | hx
        · exact not_lt.mp h
        · exact le_trans (ht x hx) (not_lt.mp h)
      · rw [List.pairwise_cons]
        exact ⟨ht, hrest⟩

theorem sortStreams_pairwise (l : List Stream) :
    (sortStreams l).Pairwise (fun a b => seedersVal b ≤ seedersVal a) := by
  induction l with
  | nil => exact List.Pairwise.nil
  | cons s rest ih => exact insertSeeders_pairwise ih

theorem insertSeeders_filter (s : Stream) (v : Int) (m : List Stream) :
    (insertSeeders s m).filter (fun x => seedersVal x = v)
      = if seedersVal s = v then s :: m.filter (fun x => seedersVal x = v)
        else m.filter (fun x => seedersVal x = v) := by
  induction m with
  | nil =>
    by_cases hv : seedersVal s = v
    · rw [if_pos hv]
      simp [insertSeeders, List.filter_cons, hv]
    · rw [if_neg hv]
      simp [insertSeeders, List.filter_cons, hv]
  | cons t rest ih =>
    simp only [insertSeeders]
    by_cases h : seedersVal s < seedersVal t
    · rw [if_pos h]
      by_cases htv : seedersVal t = v
      · have hsv : ¬seedersVal s = v := by
          intro he
          rw [he, htv] at h
          exact lt_irrefl v h
        simp [List.filter_cons, htv, hsv, ih]
      · simp [List.filter_cons, htv, ih]
    · rw [if_neg h]
      by_cases hsv : seedersVal s = v
      · rw [if_pos hsv, List.filter_cons, if_pos (by simp [hsv])]
      · rw [if_neg hsv, List.filter_cons, if_neg (by simp [hsv])]

theorem sortStreams_filter (l : List Stream) (v : Int) :
    (sortStreams l).filter (fun x => seedersVal x = v)
      = l.filter (fun x => seedersVal x = v) := by
  induction l with
  | nil => rfl
  | cons s rest ih =>
    rw [show sortStreams (s :: rest) = insertSeeders s (sortStreams rest) from rfl,
      insertSeeders_filter, ih, List.filter_cons]
    by_cases hsv : seedersVal s = v
    · rw [if_pos hsv, if_pos (by simp [hsv])]
    · rw [if_neg hsv, if_neg (by simp [hsv])]

theorem flatMap_none_eq_nil (settled : List (Option (List Stream))) :
    (∀ r ∈ settled, r = none) → settled.flatMap (fun r => r.getD []) = [] := by
  induction settled with
  | nil => intro _; rfl
  | cons r rs ih =>
    intro hall
    rw [List.flatMap_cons, hall r (List.mem_cons_self r rs),
      ih (fun x hx => hall x (List.mem_cons_of_mem r hx))]
    rfl

theorem ite_write_isSome (L : List Stream) (key : List Char) :
    ((if 0 < L.length then some (key, (⟨L⟩ : StreamResponse)) else none).isSome
        = true) ↔ L ≠ [] := by
  by_cases h : 0 < L.length
  · rw [if_pos h]
    constructor
    · intro _
      exact List.length_pos.mp h
    · intro _
      rfl
  · rw [if_neg h]
    constructor
    · intro hfalse
      exact absurd hfalse (by simp)
    · intro hne
      exact absurd (List.length_pos.mpr hne) h

/-- Claim C1: the merge stage deduplicates by the identity key
`infoHash ?? url` in call-order: the first stream carrying each key is
kept with its fields intact apart from `sources`, later streams with a
seen key are dropped after merging their `sources` into the kept stream as
a first-occurrence set-union (left untouched when no duplicate arrives or
when the union is empty), and no two streams of the result share a key. -/
theorem c1_dedupe_merge (l : List Stream) :
    dedupeStreams l = specDedupe l ∧ ((dedupeStreams l).map streamKey).Nodup := by
  have hmain : dedupeStreams l = specDedupe l :=
    dedupeAux_spec l [] (by intro x hx; simp at hx)
  refine ⟨hmain, ?_⟩
  rw [hmain]
  exact (specDedupeAux_keys l []).1

/-- Claim C2: the fresh stream-handler path calls `setCache` exactly when
the final stream list is non-empty, the written value is the returned
response under the request cache key, and when every scraper settles
rejected (e.g. all cancelled by the deadline) the response is
`{streams:[]}` and nothing is written. -/
theorem c2_cache_write (tp : List Char) (parsed : ParsedStremioId)
    (settled : List (Option (List Stream))) (resp : StreamResponse)
    (wr : Option (List Char × StreamResponse))
    (h : handleStreamFresh tp parsed settled = some (resp, wr)) :
    (wr.isSome = true ↔ resp.streams ≠ []) ∧
      (∀ k v, wr = some (k, v) → buildCacheKey tp parsed = some k ∧ v = resp) ∧
      ((∀ r ∈ settled, r = none) → resp = ⟨[]⟩ ∧ wr = none) := by
  unfold handleStreamFresh at h
  cases hkey : buildCacheKey tp parsed with
  | none =>
    simp only [hkey] at h
    exact absurd h (by simp)
  | some key =>
    simp only [hkey] at h
    injection h with h2
    rw [Prod.mk.injEq] at h2
    obtain ⟨hr, hw⟩ := h2
    refine ⟨?_, ?_, ?_⟩
    · rw [← hw, ← hr]
      exact ite_write_isSome _ key
    · intro k v hkv
      rw [← hw] at hkv
      by_cases hlen : 0 < ((sortedOf settled).map
          (fun s => stripStreamExtras (applyBingeGroup s parsed tp))).length
      · rw [if_pos hlen] at hkv
        injection hkv with h3
        rw [Prod.mk.injEq] at h3
        obtain ⟨h4, h5⟩ := h3
        constructor
        · rw [h4]
        · rw [← h5]
          exact hr
      · rw [if_neg hlen] at hkv
        exact absurd hkv (by simp)
    · intro hall
      have hresp : (sortedOf settled).map
          (fun s => stripStreamExtras (applyBingeGroup s parsed tp)) = [] := by
        have h0 : dedupeSettled settled = [] := by
          unfold dedupeSettled
          rw [flatMap_none_eq_nil settled hall]
          rfl
        unfold sortedOf filteredOf
        rw [h0]
        rfl
      constructor
      · rw [← hr, hresp]
      · rw [← hw, hresp, if_neg (by simp)]

/-- Claim C7: in the fresh path the sorted stage has non-increasing
internal seeder counts (0 when absent), the sort is stable (streams of
each seeder count keep the order they had entering the sort, which is
their relative order after the dedupe stage since the zero-seeder filter
preserves order), and the response streams are exactly the sorted streams
mapped through the binge-group/strip steps, which preserve list order. -/
theorem c7_sorted_stable (tp : List Char) (parsed : ParsedStremioId)
    (settled : List (Option (List Stream))) :
    (sortedOf settled).Pairwise (fun a b => seedersVal b ≤ seedersVal a) ∧
      (∀ v : Int, (sortedOf settled).filter (fun x => seedersVal x = v)
        = (filteredOf settled).filter (fun x => seedersVal x = v)) ∧
      (∀ v : Int, List.Sublist
        ((sortedOf settled).filter (fun x => seedersVal x = v))
        ((dedupeSettled settled).filter (fun x => seedersVal x = v))) ∧
      ∀ resp wr, handleStreamFresh tp parsed settled = some (resp, wr) →
        resp.streams = (sortedOf settled).map
          (fun s => stripStreamExtras (applyBingeGroup s parsed tp)) := by
  refine ⟨sortStreams_pairwise _, fun v => sortStreams_filter _ v, ?_, ?_⟩
  · intro v
    show List.Sublist
      ((sortStreams (filteredOf settled)).filter (fun x => seedersVal x = v))
      ((dedupeSettled settled).filter (fun x => seedersVal x = v))
    rw [sortStreams_filter]
    exact List.Sublist.filter _ (List.filter_sublist _)
  · intro resp wr h
    unfold handleStreamFresh at h
    cases hkey : buildCacheKey tp parsed with
    | none =>
      simp only [hkey] at h
      exact absurd h (by simp)
    | some key =>
      simp only [hkey] at h
      injection h with h2
      rw [Prod.mk.injEq] at h2
      obtain ⟨hr, _⟩ := h2
      rw [← hr]

/-- Claim C10: every stream of a freshly computed response carries an
identity: its dedupe key `infoHash ?? url` is non-empty, so a stream with
neither `infoHash` nor `url` never reaches the returned (hence cached)
response. -/
theorem c10_stream_identity (tp : List Char) (parsed : ParsedStremioId)
    (settled : List (Option (List Stream))) (resp : StreamResponse)
    (wr : Option (List Char × StreamResponse))
    (h : handleStreamFresh tp parsed settled = some (resp, wr)) :
    ∀ t ∈ resp.streams, streamKey t ≠ [] ∧ ¬(t.infoHash = none ∧ t.url = none) := by
  unfold handleStreamFresh at h
  cases hkey : buildCacheKey tp parsed with
  | none =>
    simp only [hkey] at h
    exact absurd h (by simp)
  | some key =>
    simp only [hkey] at h
    injection h with h2
    rw [Prod.mk.injEq] at h2
    obtain ⟨hr, _⟩ := h2
    intro t ht
    rw [← hr] at ht
    obtain ⟨u, hu, hut⟩ := List.mem_map.mp ht
    have hu2 : u ∈ filteredOf settled := sortStreams_mem hu
    have hu3 : u ∈ dedupeSettled settled := List.mem_of_mem_filter hu2
    have hukey : streamKey u ≠ [] := dedupeStreams_key_ne_nil hu3
    have hkt : streamKey t = streamKey u := by
      rw [← hut, streamKey_stripStreamExtras, streamKey_applyBingeGroup]
    constructor
    · rw [hkt]
      exact hukey
    · rintro ⟨h1, h2⟩
      have hnil : streamKey t = [] := by
        simp [streamKey, h1, h2]
      rw [hkt] at hnil
      exact hukey hnil

/-- Witness for `c2_cache_write`: two rejected scrapers yield the empty
response and no cache write. -/
theorem c2_cache_write_witness :
    ((none : Option (List Char × StreamResponse)).isSome = true
        ↔ (⟨[]⟩ : StreamResponse).streams ≠ []) ∧
      (∀ k v, (none : Option (List Char × StreamResponse)) = some (k, v) →
        buildCacheKey ("movie".toList) ⟨"tt1", none, none⟩ = some k ∧
          v = (⟨[]⟩ : StreamResponse)) ∧
      ((∀ r ∈ ([none, none] : List (Option (List Stream))), r = none) →
        (⟨[]⟩ : StreamResponse) = ⟨[]⟩ ∧
          (none : Option (List Char × StreamResponse)) = none) :=
  c2_cache_write ("movie".toList) ⟨"tt1", none, none⟩ [none, none] ⟨[]⟩ none
    (by decide)

/-- Witness for `c10_stream_identity`: the stream with an infoHash survives
(the identity-less stream next to it is dropped) and satisfies the identity
property. -/
theorem c10_stream_identity_witness :
    streamKey (Stream.mk none none none (some ("h".toList)) none none none none)
        ≠ []
      ∧ ¬((Stream.mk none none none (some ("h".toList))
              none none none none).infoHash = none
          ∧ (Stream.mk none none none (some ("h".toList))
              none none none none).url = none) :=
  c10_stream_identity ("movie".toList) ⟨"tt1", none, none⟩
    [some [Stream.mk none none none (some ("h".toList)) none none none (some 5),
      Stream.mk none none none none none none none none]]
    (StreamResponse.mk
      [Stream.mk none none none (some ("h".toList)) none none none none])
    (some ("stream:movie:tt1".toList,
      StreamResponse.mk
        [Stream.mk none none none (some ("h".toList)) none none none none]))
    (by decide)
    (Stream.mk none none none (some ("h".toList)) none none none none)
    (List.mem_singleton.mpr rfl)

/-! ### Lemmas for the IMDb dataset binary search (claim C6) -/


/-- JS `<` on strings is irreflexive. -/
theorem listLt_irrefl (a : List Char) : listLt a a = false := by
  induction a with
  | nil => rfl
  | cons c as ih =>
    simp only [listLt]
    rw [if_neg (lt_irrefl _), if_neg (lt_irrefl _)]
    exact ih

/-- JS `<` on strings is transitive. -/
theorem listLt_trans (a : List Char) : ∀ b c : List Char,
    listLt a b = true → listLt b c = true → listLt a c = true := by
  induction a with
  | nil =>
    intro b c hab hbc
    cases b with
    | nil => simp [listLt] at hab
    | cons y bs =>
      cases c with
      | nil => simp [listLt] at hbc
      | cons z cs => rfl
  | cons x as ih =>
    intro b c hab hbc
    cases b with
    | nil => simp [listLt] at hab
    | cons y bs =>
      cases c with
      | nil => simp [listLt] at hbc
      | cons z cs =>
        simp only [listLt] at hab hbc ⊢
        by_cases hxy : x.toNat < y.toNat
        · by_cases hyz : y.toNat < z.toNat
          · rw [if_pos (by omega)]
          · rw [if_neg hyz] at hbc
            by_cases hzy : z.toNat < y.toNat
            · rw [if_pos hzy] at hbc
              exact absurd hbc (by simp)
            · rw [if_neg hzy] at hbc
              rw [if_pos (by omega)]
        · rw [if_neg hxy] at hab
          by_cases hyx : y.toNat < x.toNat
          · rw [if_pos hyx] at hab
            exact absurd hab (by simp)
          · rw [if_neg hyx] at hab
            by_cases hyz : y.toNat < z.toNat
            · rw [if_pos (by omega)]
            · rw [if_neg hyz] at hbc
              by_cases hzy : z.toNat < y.toNat
              · rw [if_pos hzy] at hbc
                exact absurd hbc (by simp)
              · rw [if_neg hzy] at hbc
                rw [if_neg (by omega), if_neg (by omega)]
                exact ih bs cs hab hbc

/-- The boolean sortedness check gives the propositional pairwise order. -/
theorem pairwiseLtB_pairwise : ∀ {l : List (List Char)}, pairwiseLtB l = true →
    l.Pairwise (fun a b => listLt a b = true) := by
  intro l
  induction l with
  | nil => intro _; exact List.Pairwise.nil
  | cons a r ih =>
    intro h
    simp only [pairwiseLtB, Bool.and_eq_true] at h
    obtain ⟨h1, h2⟩ := h
    rw [List.pairwise_cons]
    exact ⟨fun b hb => List.all_eq_true.mp h1 b hb, ih h2⟩

/-- Unpack `wellformedTsv` into its three conjuncts. -/
theorem wellformedTsv_parts {header : List Char} {dataLines : List (List Char)}
    (h : wellformedTsv header dataLines = true) :
    (∀ c ∈ header, c ≠ '\n') ∧
      (∀ l ∈ dataLines, l ≠ [] ∧ ∀ c ∈ l, c ≠ '\n') ∧
      dataLines.Pairwise (fun a b => listLt (keyOf a) (keyOf b) = true) := by
  simp only [wellformedTsv, Bool.and_eq_true] at h
  obtain ⟨⟨h1, h2⟩, h3⟩ := h
  refine ⟨?_, ?_, ?_⟩
  · intro c hc
    simpa using List.all_eq_true.mp h1 c hc
  · intro l hl
    have h4 := List.all_eq_true.mp h2 l hl
    simp only [Bool.and_eq_true, decide_eq_true_eq] at h4
    obtain ⟨hne, hall⟩ := h4
    exact ⟨hne, fun c hc => by simpa using List.all_eq_true.mp hall c hc⟩
  · exact List.pairwise_map.mp (pairwiseLtB_pairwise h3)

/-- `find?` returns the element at the first matching index. -/
theorem find_first_match {α : Type} (p : α → Bool) :
    ∀ (l : List α) (i : Nat) (hi : i < l.length),
      p (l.get ⟨i, hi⟩) = true →
      (∀ (j : Nat) (hj : j < l.length), j < i → p (l.get ⟨j, hj⟩) = false) →
      l.find? p = some (l.get ⟨i, hi⟩) := by
  intro l
  induction l with
  | nil =>
    intro i hi _ _
    exact absurd hi (by simp)
  | cons x l ih =>
    intro i hi hp hprev
    cases i with
    | zero =>
      exact List.find?_cons_of_pos l hp
    | succ i2 =>
      have hx : p x = false := hprev 0 (by simp) (by omega)
      rw [List.find?_cons_of_neg l (by simp [hx])]
      exact ih i2 (by simpa using hi) hp
        (fun j hj hji => hprev (j + 1) (by simpa using hj) (by omega))

/-- `findIdx?` over `xs ++ y :: r` where `xs` has no match and `y` matches. -/
theorem findIdx_append_first {α : Type} (p : α → Bool) :
    ∀ (xs : List α) (y : α) (r : List α),
      (∀ x ∈ xs, p x = false) → p y = true →
      (xs ++ y :: r).findIdx? p = some xs.length := by
  intro xs
  induction xs with
  | nil =>
    intro y r _ hy
    rw [List.nil_append]
    simp [List.findIdx?_cons, hy]
  | cons x xs ih =>
    intro y r hxs hy
    rw [List.cons_append, List.findIdx?_cons]
    rw [hxs x (List.mem_cons_self x xs)]
    simp [ih y r (fun z hz => hxs z (List.mem_cons_of_mem x hz)) hy]

/-- Each data line advances the start offset by its length plus the newline. -/
theorem spanStart_succ (ls : List (List Char)) :
    ∀ (d i : Nat) (hi : i < ls.length),
      spanStart d ls (i + 1)
        = spanStart d ls i + ((ls.get ⟨i, hi⟩).length + 1) := by
  induction ls with
  | nil =>
    intro d i hi
    exact absurd hi (by simp)
  | cons l ls ih =>
    intro d i hi
    cases i with
    | zero =>
      simp only [spanStart]
      rfl
    | succ i2 =>
      simp only [spanStart, List.get_cons_succ]
      exact ih (d + (l.length + 1)) i2 (by simpa using hi)

/-- Start offsets never precede the base offset. -/
theorem spanStart_ge (ls : List (List Char)) : ∀ (d i : Nat), d ≤ spanStart d ls i := by
  induction ls with
  | nil =>
    intro d i
    cases i <;> simp [spanStart]
  | cons l ls ih =>
    intro d i
    cases i with
    | zero => simp [spanStart]
    | succ i2 =>
      calc d ≤ d + (l.length + 1) := by omega
      _ ≤ spanStart (d + (l.length + 1)) ls i2 := ih (d + (l.length + 1)) i2
      _ = spanStart d (l :: ls) (i2 + 1) := by simp only [spanStart]

/-- Start offsets are monotone step by step. -/
theorem spanStart_le_succ (ls : List (List Char)) :
    ∀ d i, spanStart d ls i ≤ spanStart d ls (i + 1) := by
  induction ls with
  | nil =>
    intro d i
    cases i <;> simp [spanStart]
  | cons l ls ih =>
    intro d i
    cases i with
    | zero =>
      simp only [spanStart]
      omega
    | succ i2 =>
      simp only [spanStart]
      exact ih (d + (l.length + 1)) i2

/-- Start offsets are monotone. -/
theorem spanStart_mono (ls : List (List Char)) (d : Nat) :
    ∀ {i j : Nat}, i ≤ j → spanStart d ls i ≤ spanStart d ls j := by
  intro i j h
  induction h with
  | refl => exact le_refl _
  | step _ ih => exact le_trans ih (spanStart_le_succ ls d _)

/-- Dropping to the start of the `i`-th line exposes that line, its newline, and the rest. -/
theorem drop_tailOf (ls0 : List (List Char)) :
    ∀ (i : Nat) (hi : i < ls0.length) (pre : List Char),
      (pre ++ tailOf ls0).drop (spanStart pre.length ls0 i)
        = ls0.get ⟨i, hi⟩ ++ '\n' :: tailOf (ls0.drop (i + 1)) := by
  intro i
  induction i generalizing ls0 with
  | zero =>
    intro hi pre
    cases ls0 with
    | nil => exact absurd hi (by simp)
    | cons l ls2 =>
      rw [show spanStart pre.length (l :: ls2) 0 = pre.length from by
        simp only [spanStart]]
      rw [show tailOf (l :: ls2) = (l ++ ['\n']) ++ tailOf ls2 from by
        simp [tailOf, List.flatMap_cons]]
      rw [List.drop_left]
      show (l ++ ['\n']) ++ tailOf ls2 = l ++ '\n' :: tailOf ls2
      rw [List.append_assoc, List.singleton_append]
  | succ i2 ihi =>
    intro hi pre
    cases ls0 with
    | nil => exact absurd hi (by simp)
    | cons l ls2 =>
      rw [show spanStart pre.length (l :: ls2) (i2 + 1)
          = spanStart (pre.length + (l.length + 1)) ls2 i2 from by
        simp only [spanStart]]
      rw [show pre.length + (l.length + 1) = (pre ++ (l ++ ['\n'])).length from by
        simp]
      rw [show pre ++ tailOf (l :: ls2) = (pre ++ (l ++ ['\n'])) ++ tailOf ls2 from by
        simp [tailOf, List.flatMap_cons]]
      exact ihi ls2 (by simpa using hi) (pre ++ (l ++ ['\n']))

/-- The drop lemma specialised to a whole TSV file. -/
theorem drop_tsv (header : List Char) (dataLines : List (List Char))
    (i : Nat) (hi : i < dataLines.length) :
    (tsvFile header dataLines).drop (spanStart (header.length + 1) dataLines i)
      = dataLines.get ⟨i, hi⟩ ++ '\n' :: tailOf (dataLines.drop (i + 1)) := by
  have h := drop_tailOf dataLines i hi (header ++ ['\n'])
  rw [show (header ++ ['\n']).length = header.length + 1 from by simp,
    show (header ++ ['\n']) ++ tailOf dataLines = tsvFile header dataLines from by
      simp [tsvFile]] at h
  exact h

/-- A data line ends strictly before the end of the file (its newline follows). -/
theorem span_end_lt (header : List Char) (dataLines : List (List Char))
    (i : Nat) (hi : i < dataLines.length) :
    spanStart (header.length + 1) dataLines i + (dataLines.get ⟨i, hi⟩).length
      < (tsvFile header dataLines).length := by
  have h := congrArg List.length (drop_tsv header dataLines i hi)
  rw [List.length_drop] at h
  simp only [List.length_append, List.length_cons] at h
  have h2 := spanStart_ge dataLines (header.length + 1) i
  have h3 : spanStart (header.length + 1) dataLines i
      ≤ (tsvFile header dataLines).length := by
    by_contra h4
    push_neg at h4
    omega
  omega

/-- The prefix before any data line ends with a newline. -/
theorem take_tsv_newline (header : List Char) (dataLines : List (List Char)) :
    ∀ (i : Nat), i < dataLines.length →
      ∃ q, (tsvFile header dataLines).take
          (spanStart (header.length + 1) dataLines i) = q ++ ['\n'] := by
  intro i hi
  cases i with
  | zero =>
    refine ⟨header, ?_⟩
    rw [show spanStart (header.length + 1) dataLines 0 = header.length + 1 from by
      simp only [spanStart]]
    rw [show tsvFile header dataLines = (header ++ ['\n']) ++ tailOf dataLines from by
      simp [tsvFile]]
    rw [show header.length + 1 = (header ++ ['\n']).length from by simp]
    rw [List.take_left]
  | succ i2 =>
    have hi2 : i2 < dataLines.length := by omega
    refine ⟨(tsvFile header dataLines).take
        (spanStart (header.length + 1) dataLines i2) ++ dataLines.get ⟨i2, hi2⟩, ?_⟩
    rw [spanStart_succ dataLines (header.length + 1) i2 hi2]
    rw [List.take_add, drop_tsv header dataLines i2 hi2]
    rw [List.take_append 1]
    rw [show ('\n' :: tailOf (dataLines.drop (i2 + 1))).take 1 = ['\n'] from rfl]
    rw [← List.append_assoc]

/-- Every offset inside the data region lies within some line span, inclusive of its trailing newline position. -/
theorem tailOf_coverage (ls0 : List (List Char)) :
    ∀ (d o : Nat), d ≤ o → o < d + (tailOf ls0).length →
      ∃ (i : Nat) (hi : i < ls0.length),
        spanStart d ls0 i ≤ o ∧
          o ≤ spanStart d ls0 i + (ls0.get ⟨i, hi⟩).length := by
  induction ls0 with
  | nil =>
    intro d o h1 h2
    simp only [tailOf, List.flatMap_nil, List.length_nil] at h2
    exact absurd h2 (by omega)
  | cons l ls ih =>
    intro d o h1 h2
    by_cases ho : o ≤ d + l.length
    · refine ⟨0, by simp, ?_, ?_⟩
      · simp only [spanStart]
        exact h1
      · simp only [spanStart, List.get_cons_zero]
        exact ho
    · have hlen : (tailOf (l :: ls)).length = l.length + 1 + (tailOf ls).length := by
        simp only [tailOf, List.flatMap_cons, List.length_append, List.length_cons,
          List.length_nil]
      obtain ⟨i, hi, ha, hb⟩ := ih (d + (l.length + 1)) o (by omega) (by omega)
      refine ⟨i + 1, by simpa using hi, ?_, ?_⟩
      · simp only [spanStart]
        exact ha
      · simp only [spanStart, List.get_cons_succ]
        exact hb

/-- `readLineAtOffset` at any offset within a data line span (including its
trailing newline) returns that line with its exact start and end offsets. -/
theorem lineAt_span (header : List Char) (dataLines : List (List Char))
    (hwH : ∀ c ∈ header, c ≠ '\n')
    (hwL : ∀ l ∈ dataLines, l ≠ [] ∧ ∀ c ∈ l, c ≠ '\n')
    (i : Nat) (hi : i < dataLines.length) (o : Nat)
    (h1 : spanStart (header.length + 1) dataLines i ≤ o)
    (h2 : o ≤ spanStart (header.length + 1) dataLines i
      + (dataLines.get ⟨i, hi⟩).length) :
    lineAt (tsvFile header dataLines) o
      = (dataLines.get ⟨i, hi⟩, spanStart (header.length + 1) dataLines i,
          spanStart (header.length + 1) dataLines i
            + (dataLines.get ⟨i, hi⟩).length) := by
  have hend := span_end_lt header dataLines i hi
  have hoF : o < (tsvFile header dataLines).length := by omega
  have hdrop := drop_tsv header dataLines i hi
  obtain ⟨q, hq⟩ := take_tsv_newline header dataLines i hi
  have hLfree : ∀ c ∈ dataLines.get ⟨i, hi⟩, c ≠ '\n' :=
    (hwL _ (List.get_mem dataLines i hi)).2
  have ho : o = spanStart (header.length + 1) dataLines i
      + (o - spanStart (header.length + 1) dataLines i) := by omega
  have htake : (tsvFile header dataLines).take o
      = (tsvFile header dataLines).take (spanStart (header.length + 1) dataLines i)
        ++ ((tsvFile header dataLines).drop
            (spanStart (header.length + 1) dataLines i)).take
          (o - spanStart (header.length + 1) dataLines i) := by
    conv_lhs => rw [ho, List.take_add]
  have hpart : ((tsvFile header dataLines).drop
      (spanStart (header.length + 1) dataLines i)).take
        (o - spanStart (header.length + 1) dataLines i)
      = (dataLines.get ⟨i, hi⟩).take
          (o - spanStart (header.length + 1) dataLines i) := by
    rw [hdrop]
    exact List.take_append_of_le_length (by omega)
  have hrev : ((tsvFile header dataLines).take o).reverse
      = ((dataLines.get ⟨i, hi⟩).take
          (o - spanStart (header.length + 1) dataLines i)).reverse
        ++ '\n' :: q.reverse := by
    rw [htake, hpart, hq]
    simp
  have hfind : (((tsvFile header dataLines).take o).reverse).findIdx?
      (fun c => c = '\n')
      = some (o - spanStart (header.length + 1) dataLines i) := by
    rw [hrev]
    rw [findIdx_append_first (fun c => decide (c = '\n')) _ '\n' q.reverse
      (fun x hx => decide_eq_false
        (hLfree x (List.mem_of_mem_take (List.mem_reverse.mp hx))))
      (by simp)]
    rw [List.length_reverse, List.length_take]
    congr 1
    omega
  simp only [lineAt]
  rw [min_eq_left (le_of_lt hoF)]
  have hstart : lineStartAt (tsvFile header dataLines) o
      = spanStart (header.length + 1) dataLines i := by
    unfold lineStartAt
    rw [hfind]
    show o - (o - spanStart (header.length + 1) dataLines i)
      = spanStart (header.length + 1) dataLines i
    omega
  rw [hstart]
  have hendAt : lineEndAt (tsvFile header dataLines)
      (spanStart (header.length + 1) dataLines i)
      = spanStart (header.length + 1) dataLines i
        + (dataLines.get ⟨i, hi⟩).length := by
    unfold lineEndAt
    rw [hdrop]
    rw [findIdx_append_first (fun c => decide (c = '\n')) _ '\n'
      (tailOf (dataLines.drop (i + 1)))
      (fun x hx => decide_eq_false (hLfree x hx)) (by simp)]
  rw [hendAt]
  rw [show spanStart (header.length + 1) dataLines i
      + (dataLines.get ⟨i, hi⟩).length
      - spanStart (header.length + 1) dataLines i
      = (dataLines.get ⟨i, hi⟩).length from by omega]
  rw [hdrop]
  rw [show (dataLines.get ⟨i, hi⟩ ++ '\n' :: tailOf (dataLines.drop (i + 1))).take
      (dataLines.get ⟨i, hi⟩).length = dataLines.get ⟨i, hi⟩ from
    List.take_left _ _]

/-- `readLineAtOffset` at offset 0 returns the header line. -/
theorem lineAt_zero (header : List Char) (dataLines : List (List Char))
    (hwH : ∀ c ∈ header, c ≠ '\n') :
    lineAt (tsvFile header dataLines) 0 = (header, 0, header.length) := by
  simp only [lineAt]
  rw [show min 0 (tsvFile header dataLines).length = 0 from by simp]
  have hstart : lineStartAt (tsvFile header dataLines) 0 = 0 := by
    unfold lineStartAt
    rw [show (tsvFile header dataLines).take 0 = [] from rfl]
    rfl
  rw [hstart]
  have hend : lineEndAt (tsvFile header dataLines) 0 = header.length := by
    unfold lineEndAt
    rw [show (tsvFile header dataLines).drop 0
        = header ++ '\n' :: tailOf dataLines from rfl]
    rw [findIdx_append_first (fun c => decide (c = '\n')) header '\n'
      (tailOf dataLines) (fun x hx => decide_eq_false (hwH x hx)) (by simp)]
    show 0 + header.length = header.length
    omega
  rw [hend]
  rw [show (tsvFile header dataLines).drop 0
      = header ++ '\n' :: tailOf dataLines from rfl]
  rw [show header.length - 0 = header.length from rfl]
  rw [show (header ++ '\n' :: tailOf dataLines).take header.length = header from
    List.take_left _ _]

/-- The binary-search loop returns the first data line whose key equals
`tconst` (as `find?` does), given that every matching line lies inside
`[low, high]`; fuel bounds the shrinking bracket. -/
theorem bsearchGo_correct (header : List Char) (dataLines : List (List Char))
    (tconst : List Char)
    (hwH : ∀ c ∈ header, c ≠ '\n')
    (hwL : ∀ l ∈ dataLines, l ≠ [] ∧ ∀ c ∈ l, c ≠ '\n')
    (hpw : dataLines.Pairwise (fun a b => listLt (keyOf a) (keyOf b) = true)) :
    ∀ (fuel : Nat) (low high : Int),
      ((header.length + 1 : Nat) : Int) ≤ low →
      high ≤ ((tsvFile header dataLines).length : Int) - 1 →
      (∀ (j : Nat) (hj : j < dataLines.length),
        keyOf (dataLines.get ⟨j, hj⟩) = tconst →
          low ≤ ((spanStart (header.length + 1) dataLines j : Nat) : Int) ∧
            ((spanStart (header.length + 1) dataLines j
              + (dataLines.get ⟨j, hj⟩).length : Nat) : Int) ≤ high) →
      (high + 1 - low).toNat < fuel →
      bsearchGo (tsvFile header dataLines) tconst (header.length + 1) fuel low high
        = some (dataLines.find? (fun l => keyOf l = tconst)) := by
  intro fuel
  induction fuel with
  | zero =>
    intro low high _ _ _ hm
    exact absurd hm (by omega)
  | succ fuel ih =>
    intro low high hlow hhigh hinv hm
    by_cases hlh : low ≤ high
    case neg =>
      have hnone : dataLines.find? (fun l => keyOf l = tconst) = none := by
        rw [List.find?_eq_none]
        intro x hx
        rw [List.mem_iff_get] at hx
        obtain ⟨⟨j, hj⟩, rfl⟩ := hx
        intro hpx
        rw [decide_eq_true_eq] at hpx
        obtain ⟨ha, hb⟩ := hinv j hj hpx
        have hge := spanStart_ge dataLines (header.length + 1) j
        omega
      rw [hnone]
      simp only [bsearchGo]
      rw [if_neg hlh]
    case pos =>
      simp only [bsearchGo]
      rw [if_pos hlh]
      have hmid0 : (0 : Int) ≤ (low + high) / 2 := by omega
      have hmid1 : ((header.length + 1 : Nat) : Int) ≤ (low + high) / 2 := by omega
      have hmid2 : (low + high) / 2 ≤ high := by omega
      have hmidN : ((((low + high) / 2).toNat : Nat) : Int) = (low + high) / 2 :=
        Int.toNat_of_nonneg hmid0
      have hsize : (tsvFile header dataLines).length
          = (header.length + 1) + (tailOf dataLines).length := by
        simp only [tsvFile, List.length_append, List.length_cons]
        omega
      obtain ⟨i, hi, hs1, hs2⟩ := tailOf_coverage dataLines (header.length + 1)
        (((low + high) / 2).toNat) (by omega) (by omega)
      rw [lineAt_span header dataLines hwH hwL i hi _ hs1 hs2]
      dsimp only
      have hLne : dataLines.get ⟨i, hi⟩ ≠ [] :=
        (hwL _ (List.get_mem dataLines i hi)).1
      rw [if_neg hLne]
      have hgei := spanStart_ge dataLines (header.length + 1) i
      rw [if_neg (show ¬ spanStart (header.length + 1) dataLines i
          < header.length + 1 from by omega)]
      by_cases hkey : keyOf (dataLines.get ⟨i, hi⟩) = tconst
      · rw [if_pos hkey]
        have hprev : ∀ (j : Nat) (hj : j < dataLines.length), j < i →
            (fun l => decide (keyOf l = tconst)) (dataLines.get ⟨j, hj⟩) = false := by
          intro j hj hji
          rw [decide_eq_false_iff_not]
          intro hpj
          have hlt := (List.pairwise_iff_get.mp hpw) ⟨j, hj⟩ ⟨i, hi⟩
            (Fin.mk_lt_mk.mpr hji)
          rw [hpj, hkey] at hlt
          rw [listLt_irrefl] at hlt
          exact absurd hlt (by simp)
        rw [find_first_match (fun l => decide (keyOf l = tconst)) dataLines i hi
          (by simpa using hkey) hprev]
      · rw [if_neg hkey]
        by_cases hlt : listLt (keyOf (dataLines.get ⟨i, hi⟩)) tconst = true
        · rw [if_pos hlt]
          apply ih
          · omega
          · exact hhigh
          · intro j hj hj2
            obtain ⟨ho1, ho2⟩ := hinv j hj hj2
            have hij : i < j := by
              by_contra hle
              push_neg at hle
              rcases Nat.lt_or_ge j i with hji | hji2
              · have hl2 := (List.pairwise_iff_get.mp hpw) ⟨j, hj⟩ ⟨i, hi⟩
                  (Fin.mk_lt_mk.mpr hji)
                rw [hj2] at hl2
                have hc := listLt_trans _ _ _ hl2 hlt
                rw [listLt_irrefl] at hc
                exact absurd hc (by simp)
              · have hji3 : j = i := by omega
                subst hji3
                exact hkey hj2
            refine ⟨?_, ho2⟩
            have hsu := spanStart_succ dataLines (header.length + 1) i hi
            have hmo := spanStart_mono dataLines (header.length + 1)
              (show i + 1 ≤ j from hij)
            omega
          · omega
        · rw [if_neg hlt]
          apply ih
          · exact hlow
          · omega
          · intro j hj hj2
            obtain ⟨ho1, ho2⟩ := hinv j hj hj2
            have hij : j < i := by
              by_contra hle
              push_neg at hle
              rcases Nat.lt_or_ge i j with hij2 | hij3
              · have hl2 := (List.pairwise_iff_get.mp hpw) ⟨i, hi⟩ ⟨j, hj⟩
                  (Fin.mk_lt_mk.mpr hij2)
                rw [hj2] at hl2
                exact absurd hl2 hlt
              · have hji4 : i = j := by omega
                subst hji4
                exact hkey hj2
            refine ⟨ho1, ?_⟩
            have hsu := spanStart_succ dataLines (header.length + 1) j hj
            have hmo := spanStart_mono dataLines (header.length + 1)
              (show j + 1 ≤ i from hij)
            omega
          · omega

/-- `findLineByTconst` on a well-formed TSV file finds exactly the first
data line whose first column equals `tconst`. -/
theorem findLine_correct (header : List Char) (dataLines : List (List Char))
    (tconst : List Char) (hwf : wellformedTsv header dataLines = true) :
    findLineByTconst (tsvFile header dataLines) tconst
      = some (dataLines.find? (fun l => keyOf l = tconst)) := by
  obtain ⟨hwH, hwL, hpw⟩ := wellformedTsv_parts hwf
  have hsize : (tsvFile header dataLines).length
      = (header.length + 1) + (tailOf dataLines).length := by
    simp only [tsvFile, List.length_append, List.length_cons]
    omega
  simp only [findLineByTconst]
  rw [lineAt_zero header dataLines hwH]
  rw [show ((header, 0, header.length) : List Char × Nat × Nat).2.2
      = header.length from rfl]
  rw [show min (header.length + 1) (tsvFile header dataLines).length
      = header.length + 1 from by omega]
  apply bsearchGo_correct header dataLines tconst hwH hwL hpw
  · exact le_refl _
  · exact le_refl _
  · intro j hj hj2
    have hge := spanStart_ge dataLines (header.length + 1) j
    have hend := span_end_lt header dataLines j hj
    constructor
    · omega
    · omega
  · omega

/-- C6: on a well-formed `title.basics.tsv` image (newline-free header,
non-empty newline-free data lines sorted strictly by their tab-separated
first column), the binary search `findLineByTconst` returns exactly the
line whose `tconst` column matches (`none` inside `some` when absent, the
fuel artifact `none` never occurring), and `getTitleBasics` parses that
line into a `TitleBasics` and memoizes the result — including `null` on a
filesystem error — while a cache hit returns the cached value without
touching the file. -/
theorem c6_title_lookup (header : List Char) (dataLines : List (List Char))
    (tconst : List Char) (cache : List (List Char × Option TitleBasics))
    (hwf : wellformedTsv header dataLines = true) :
    (findLineByTconst (tsvFile header dataLines) tconst
        = some (dataLines.find? (fun l => keyOf l = tconst))) ∧
      (cache.find? (fun p => p.1 = tconst) = none →
        getTitleBasics (some (tsvFile header dataLines)) cache tconst
          = some ((dataLines.find? (fun l => keyOf l = tconst)).map parseTitleBasics,
              (tconst,
                (dataLines.find? (fun l => keyOf l = tconst)).map parseTitleBasics)
                :: cache)) ∧
      (cache.find? (fun p => p.1 = tconst) = none →
        getTitleBasics none cache tconst = some (none, (tconst, none) :: cache)) ∧
      (∀ (k : List Char) (v : Option TitleBasics),
        cache.find? (fun p => p.1 = tconst) = some (k, v) →
          ∀ f, getTitleBasics f cache tconst = some (v, cache)) := by
  have hfl := findLine_correct header dataLines tconst hwf
  refine ⟨hfl, ?_, ?_, ?_⟩
  · intro hmiss
    simp only [getTitleBasics, hmiss, hfl]
    cases hf : dataLines.find? (fun l => keyOf l = tconst) with
    | none => simp
    | some line =>
      have hln : line ≠ [] := by
        have hmem := List.mem_of_find?_eq_some hf
        exact ((wellformedTsv_parts hwf).2.1 line hmem).1
      simp [hln]
  · intro hmiss
    simp only [getTitleBasics, hmiss]
  · intro k v hfind f
    simp only [getTitleBasics, hfind]

/-- Witness for C6 at a concrete three-line dataset, looking up the middle
line with an empty cache. -/
theorem c6_title_lookup_witness :
    (findLineByTconst
        (tsvFile "tconst\ttitleType".toList
          ["tt0000001\tshort".toList, "tt0000002\tmovie".toList,
            "tt0000003\tshort".toList])
        "tt0000002".toList
      = some ((["tt0000001\tshort".toList, "tt0000002\tmovie".toList,
          "tt0000003\tshort".toList]).find?
          (fun l => keyOf l = "tt0000002".toList))) ∧
      (([] : List (List Char × Option TitleBasics)).find?
          (fun p => p.1 = "tt0000002".toList) = none →
        getTitleBasics
            (some (tsvFile "tconst\ttitleType".toList
              ["tt0000001\tshort".toList, "tt0000002\tmovie".toList,
                "tt0000003\tshort".toList])) [] "tt0000002".toList
          = some (((["tt0000001\tshort".toList, "tt0000002\tmovie".toList,
                "tt0000003\tshort".toList]).find?
                (fun l => keyOf l = "tt0000002".toList)).map parseTitleBasics,
              ("tt0000002".toList,
                ((["tt0000001\tshort".toList, "tt0000002\tmovie".toList,
                  "tt0000003\tshort".toList]).find?
                  (fun l => keyOf l = "tt0000002".toList)).map parseTitleBasics)
                :: [])) ∧
      (([] : List (List Char × Option TitleBasics)).find?
          (fun p => p.1 = "tt0000002".toList) = none →
        getTitleBasics none [] "tt0000002".toList
          = some (none, ("tt0000002".toList, none) :: [])) ∧
      (∀ (k : List Char) (v : Option TitleBasics),
        ([] : List (List Char × Option TitleBasics)).find?
            (fun p => p.1 = "tt0000002".toList) = some (k, v) →
          ∀ f, getTitleBasics f [] "tt0000002".toList = some (v, [])) :=
  c6_title_lookup "tconst\ttitleType".toList
    ["tt0000001\tshort".toList, "tt0000002\tmovie".toList,
      "tt0000003\tshort".toList]
    "tt0000002".toList [] (by decide)


end Barestreams
